import Mathlib

/-!
Shallow embedding of the `sls-memory` pattern playbook core.

Modules embedded from the TypeScript source:
* `src/core/matching.ts` — keyword extraction, Jaccard scoring, regex-first
  pattern matching (`extractKeywords`, `calculateScore`, `findMatchingPatterns`).
* `src/core/playbook.ts` — the `Pattern` data model, `findPatternById`,
  `generatePatternId`, `recordFeedback`, and the dynamic validators
  (`validatePattern`, `validatePlaybook`) over an untyped JSON-like value model.
* `src/cli/mark.ts` — the pure load→mutate→save core of the `mark` command.
* `src/cli/reflect.ts` — fingerprint normalization (`generateFingerprint`),
  `categorizError`, and the extraction pipeline's per-row classification.
* `src/core/embeddings.ts` — TF-IDF tokenization, IDF smoothing, vectors and
  cosine similarity.

Modelling conventions: JavaScript numbers are modelled as `ℚ` where the code
only adds, divides and compares (scores, term frequencies) and as `ℝ` where
`Math.sqrt` / `Math.log` are involved (TF-IDF weights, magnitudes, IDF).
JavaScript `Map`s are modelled as a `Finset` of keys plus a weight function,
or as lookup functions into `Option`.  `RegExp` compilation and testing for
user-supplied pattern strings is modelled by an oracle parameter
`rx : String → Option (String → Bool)` (`none` = compile failure, mirroring
the `try/catch` around `new RegExp`); the fixed regexes inside
`generateFingerprint` are embedded directly as scanners.  `String.toLower` /
`Char.toLower` model `toLowerCase` (ASCII range, which is all the fixed
regexes distinguish).
-/

namespace SlsMemory

/-! ### Data model (`src/core/playbook.ts`) -/

/-- Severity level of a pattern: `'low' | 'medium' | 'high'`. -/
inductive Severity where
  | low
  | medium
  | high
deriving DecidableEq, Repr

/-- A fix step for a pattern (`interface Fix`). -/
structure Fix where
  step : String
  command : Option String
deriving DecidableEq, Repr

/-- Feedback tracking for a pattern (`interface Feedback`). -/
structure Feedback where
  helpful : Nat
  harmful : Nat
deriving DecidableEq, Repr

/-- A single error pattern in the playbook (`interface Pattern`). -/
structure Pattern where
  id : String
  fingerprint : String
  pattern : String
  severity : Severity
  category : String
  title : String
  symptoms : List String
  root_causes : List String
  fixes : List Fix
  feedback : Feedback
deriving DecidableEq, Repr

/-- The complete playbook structure (`interface Playbook`). -/
structure Playbook where
  patterns : List Pattern
deriving DecidableEq, Repr

/-- `findPatternById`: `playbook.patterns.find(p => p.id === id)`. -/
def findPatternById (playbook : Playbook) (id : String) : Option Pattern :=
  playbook.patterns.find? (fun p => p.id = id)

/-- Left-pad a string with `'0'` to width 3, modelling `padStart(3, '0')`. -/
def padStart3 (s : String) : String :=
  if s.length < 3 then String.mk (List.replicate (3 - s.length) '0') ++ s else s

/-- `generatePatternId`: `` `slsm-${num}` `` where
`num = Math.floor(Math.random() * 1000).toString().padStart(3, '0')`.
The random draw `Math.floor(Math.random() * 1000)` is modelled by the
parameter `rand`. -/
def generatePatternId (rand : Nat) : String :=
  "slsm-" ++ padStart3 (toString rand)

/-- The feedback kind accepted by `recordFeedback`. -/
inductive FeedbackType where
  | helpful
  | harmful
deriving DecidableEq, Repr

/-- `recordFeedback`: `pattern.feedback[type]++`, as a pure update. -/
def recordFeedback (p : Pattern) (t : FeedbackType) : Pattern :=
  match t with
  | .helpful => { p with feedback := { p.feedback with helpful := p.feedback.helpful + 1 } }
  | .harmful => { p with feedback := { p.feedback with harmful := p.feedback.harmful + 1 } }

/-- `toLowerCase()` character-by-character (ASCII case mapping). -/
def jsToLower (s : String) : String :=
  String.mk (s.toList.map Char.toLower)

/-! ### Keyword matching (`src/core/matching.ts`) -/

/-- A match result (`interface MatchResult`).  Scores are `ℚ`. -/
structure MatchResult where
  pattern : Pattern
  score : ℚ
  matchedKeywords : List String
deriving DecidableEq, Repr

/-- The stop-word list from `extractKeywords`. -/
def stopWords : List String :=
  ["a", "an", "the", "is", "are", "was", "were", "be", "been", "being",
   "have", "has", "had", "do", "does", "did", "will", "would", "could",
   "should", "may", "might", "must", "shall", "can", "need", "to", "of",
   "in", "for", "on", "with", "at", "by", "from", "as", "into", "through",
   "during", "before", "after", "above", "below", "between", "under",
   "again", "further", "then", "once", "here", "there", "when", "where",
   "why", "how", "all", "each", "few", "more", "most", "other", "some",
   "such", "no", "nor", "not", "only", "own", "same", "so", "than", "too",
   "very", "just", "and", "but", "or", "if", "because", "until", "while"]

/-- Character class `[a-z0-9_]`, the complement of the split regex
`/[^a-z0-9_]+/` used by `extractKeywords` (applied after `toLowerCase`). -/
def isKeywordChar (c : Char) : Bool :=
  ('a' ≤ c && c ≤ 'z') || ('0' ≤ c && c ≤ '9') || c = '_'

/-- Accumulator loop for `splitRuns`: `cur` is the current run, reversed. -/
def splitRunsGo (p : Char → Bool) (cur : List Char) : List Char → List String
  | [] => if cur.isEmpty then [] else [String.mk cur.reverse]
  | c :: rest =>
    if p c then splitRunsGo p (c :: cur) rest
    else if cur.isEmpty then splitRunsGo p [] rest
    else String.mk cur.reverse :: splitRunsGo p [] rest

/-- Split a character list into the maximal runs of characters satisfying
`p`, discarding separator runs.  Models `String.split` on the complement
class; the empty fragments JavaScript produces at the edges are dropped here
and filtered out by the length filters in the code. -/
def splitRuns (p : Char → Bool) (l : List Char) : List String :=
  splitRunsGo p [] l

/-- `extractKeywords`: lower-case, split on `/[^a-z0-9_]+/`, keep words of
length ≥ 3 that are not stop words. -/
def extractKeywords (message : String) : List String :=
  (splitRuns isKeywordChar (message.toList.map Char.toLower)).filter
    (fun word => 3 ≤ word.length && !stopWords.contains word)

/-- `calculateScore`: Jaccard-like similarity between two keyword lists,
`(matches / union.size) * 100`, with 0 for an empty input. -/
def calculateScore (keywords1 keywords2 : List String) : ℚ :=
  if keywords1.isEmpty || keywords2.isEmpty then 0
  else
    let set1 := keywords1.toFinset
    let set2 := keywords2.toFinset
    let matchCount := (set1.filter (fun word => word ∈ set2)).card
    let union := set1 ∪ set2
    ((matchCount : ℚ) / (union.card : ℚ)) * 100

/-- One iteration of the `findMatchingPatterns` loop: what (if anything) the
loop pushes onto `results` for a single pattern.  `rx` is the regex oracle
modelling `new RegExp(pattern.pattern, 'i')` (`none` = the `catch` branch). -/
def matchEntry (rx : String → Option (String → Bool)) (keywords : List String)
    (errorMessage : String) (p : Pattern) : Option MatchResult :=
  let keywordEntry : Option MatchResult :=
    let patternKeywords := extractKeywords (p.title ++ " " ++ String.intercalate " " p.symptoms)
    let score := calculateScore keywords patternKeywords
    if 20 < score then
      some { pattern := p, score := score,
             matchedKeywords := keywords.filter (fun k => patternKeywords.contains k) }
    else none
  match rx p.pattern with
  | some test => if test errorMessage then
      some { pattern := p, score := 100, matchedKeywords := keywords }
    else keywordEntry
  | none => keywordEntry

/-- Stable insertion (descending by score): the new element goes before the
first strictly smaller score, after all earlier elements with ≥ score. -/
def insertByScoreDesc (r : MatchResult) : List MatchResult → List MatchResult
  | [] => [r]
  | x :: xs => if x.score ≤ r.score then r :: x :: xs else x :: insertByScoreDesc r xs

/-- Stable sort by descending score, modelling
`results.sort((a, b) => b.score - a.score)` (JavaScript `sort` is stable;
any stable sort under the same total preorder produces the same list). -/
def sortByScoreDesc (results : List MatchResult) : List MatchResult :=
  results.foldr insertByScoreDesc []

/-- `findMatchingPatterns`: regex-first scoring of every pattern, then a
stable sort by descending score and truncation to `limit`. -/
def findMatchingPatterns (rx : String → Option (String → Bool)) (playbook : Playbook)
    (errorMessage : String) (limit : Nat := 10) : List MatchResult :=
  let keywords := extractKeywords errorMessage
  let results := playbook.patterns.filterMap (matchEntry rx keywords errorMessage)
  (sortByScoreDesc results).take limit

/-! ### Untyped validation (`validatePattern` / `validatePlaybook`)

The validators run on data freshly parsed from YAML, so they are embedded
over an untyped JSON-like value model.  `typeof x === 'object'` is true for
objects, arrays and `null`; property access on non-objects yields
`undefined` (`none`). -/

/-- A dynamically typed JavaScript value as produced by `YAML.parse`. -/
inductive JsValue where
  | null
  | bool (b : Bool)
  | num (x : ℚ)
  | str (s : String)
  | arr (elems : List JsValue)
  | obj (fields : List (String × JsValue))

/-- `typeof v === 'object'` (true for objects, arrays and `null`). -/
def jsTypeofObject : JsValue → Bool
  | .null => true
  | .arr _ => true
  | .obj _ => true
  | _ => false

/-- `v === null`. -/
def jsIsNull : JsValue → Bool
  | .null => true
  | _ => false

/-- Property access `v[key]`; `none` models `undefined`. -/
def jsGetField : JsValue → String → Option JsValue
  | .obj fields, key => (fields.find? (fun kv => kv.1 = key)).map (fun kv => kv.2)
  | _, _ => none

/-- Validation errors (`interface ValidationError`). -/
structure ValidationError where
  path : String
  message : String
deriving DecidableEq, Repr

/-- The list of valid severities used by `validatePattern`. -/
def validSeverities : List String := ["low", "medium", "high"]

/-- The check `validSeverities.includes(p.severity as string)`: true exactly
when the `severity` field is one of the three severity strings (a strict
`===` comparison, so any non-string value fails). -/
def jsSeverityValid (pattern : JsValue) : Bool :=
  match jsGetField pattern "severity" with
  | some (.str s) => validSeverities.contains s
  | _ => false

/-- Does `jsGetField p field` hold a non-empty string?  Models
`typeof p[field] === 'string' && p[field] !== ''`. -/
def isNonEmptyStringField (p : JsValue) (field : String) : Bool :=
  match jsGetField p field with
  | some (.str s) => !(s = "")
  | _ => false

/-- `validatePattern(pattern, index)`.  `rxOk` is the regex oracle modelling
whether `new RegExp(p.pattern)` compiles. -/
def validatePattern (rxOk : String → Bool) (pattern : JsValue) (index : Nat) :
    List ValidationError :=
  let pre := "patterns[" ++ toString index ++ "]"
  if !jsTypeofObject pattern || jsIsNull pattern then
    [{ path := pre, message := "Pattern must be an object" }]
  else
    let requiredStrings := ["id", "fingerprint", "pattern", "category", "title"]
    let stringErrors := requiredStrings.filterMap (fun field =>
      if isNonEmptyStringField pattern field then none
      else some { path := pre ++ "." ++ field,
                  message := field ++ " is required and must be a non-empty string" })
    let severityErrors :=
      if jsSeverityValid pattern then []
      else [{ path := pre ++ ".severity",
              message := "severity must be one of: low, medium, high" }]
    let arrayFields := ["symptoms", "root_causes", "fixes"]
    let arrayErrors := arrayFields.filterMap (fun field =>
      match jsGetField pattern field with
      | some (.arr _) => none
      | _ => some { path := pre ++ "." ++ field, message := field ++ " must be an array" })
    let feedbackErrors :=
      match jsGetField pattern "feedback" with
      | some fb =>
        if !jsTypeofObject fb || jsIsNull fb then
          [{ path := pre ++ ".feedback", message := "feedback must be an object" }]
        else
          (match jsGetField fb "helpful" with
           | some (.num _) => []
           | _ => [{ path := pre ++ ".feedback.helpful", message := "helpful must be a number" }]) ++
          (match jsGetField fb "harmful" with
           | some (.num _) => []
           | _ => [{ path := pre ++ ".feedback.harmful", message := "harmful must be a number" }])
      | none => [{ path := pre ++ ".feedback", message := "feedback must be an object" }]
    let regexErrors :=
      match jsGetField pattern "pattern" with
      | some (.str s) =>
        if rxOk s then [] else [{ path := pre ++ ".pattern", message := "Invalid regex pattern" }]
      | _ => []
    stringErrors ++ severityErrors ++ arrayErrors ++ feedbackErrors ++ regexErrors

/-- `pattern?.id` when it is a string, else `none`. -/
def jsPatternId (pattern : JsValue) : Option String :=
  match jsGetField pattern "id" with
  | some (.str s) => some s
  | _ => none

/-- The `for` loop of `validatePlaybook`: walks the patterns with the
running index and the set of ids seen so far, emitting duplicate-id errors
before each pattern's own `validatePattern` errors. -/
def validatePlaybookLoop (rxOk : String → Bool) (i : Nat) (seen : List String) :
    List JsValue → List ValidationError
  | [] => []
  | pattern :: rest =>
    let dupErrors :=
      match jsPatternId pattern with
      | some s =>
        if seen.contains s then
          [{ path := "patterns[" ++ toString i ++ "].id",
             message := "Duplicate pattern ID: " ++ s }]
        else []
      | none => []
    let seen' :=
      match jsPatternId pattern with
      | some s => s :: seen
      | none => seen
    dupErrors ++ validatePattern rxOk pattern i ++ validatePlaybookLoop rxOk (i + 1) seen' rest

/-- `validatePlaybook(data)`. -/
def validatePlaybook (rxOk : String → Bool) (data : JsValue) : List ValidationError :=
  if !jsTypeofObject data || jsIsNull data then
    [{ path := "", message := "Playbook must be an object" }]
  else
    match jsGetField data "patterns" with
    | some (.arr patterns) => validatePlaybookLoop rxOk 0 [] patterns
    | _ => [{ path := "patterns", message := "patterns must be an array" }]

/-! ### The `mark` command (`src/cli/mark.ts`)

The command loads the playbook, validates the feedback kind, finds the
pattern by id, increments the counter on the object `find` returned (the
first pattern with that id) and saves the whole playbook.  Its pure core is
a function from the loaded playbook to either an error (the command exits
without saving) or the playbook that gets saved. -/

/-- Replace the first pattern whose `id` matches, modelling the in-place
mutation of the object returned by `findPatternById`. -/
def updateFirstById (patterns : List Pattern) (id : String) (f : Pattern → Pattern) :
    List Pattern :=
  match patterns with
  | [] => []
  | p :: rest => if p.id = id then f p :: rest else p :: updateFirstById rest id f

/-- The pure core of `markCommand`: feedback-kind validation, lookup,
`recordFeedback`, save.  `Except.error` models the `process.exit(1)` paths,
on which nothing is saved. -/
def markRun (playbook : Playbook) (id : String) (feedback : String) :
    Except String Playbook :=
  if jsToLower feedback = "helpful" ∨ jsToLower feedback = "harmful" then
    match findPatternById playbook id with
    | none => .error ("Pattern not found: " ++ id)
    | some _ =>
      .ok { patterns := updateFirstById playbook.patterns id (fun p => recordFeedback p
        (if jsToLower feedback = "helpful" then .helpful else .harmful)) }
  else
    .error ("feedback must be \"helpful\" or \"harmful\", got \"" ++ feedback ++ "\"")

/-! ### The `reflect` command (`src/cli/reflect.ts`)

`generateFingerprint` chains five global regex replacements, whitespace
collapapse, `trim()` and `slice(0, 100)`.  Each `String.replace(regex, token)`
with a global flag is embedded as a scanner over the character list: at each
position it attempts the (greedy) match, emits the replacement token and
resumes after the matched text on success, and copies one character
otherwise — exactly the leftmost, non-overlapping semantics of a global
`replace`.  JavaScript `\s` is modelled by the ASCII whitespace characters;
`\w` (for `\b`) is `[A-Za-z0-9_]`. -/

/-- JavaScript `\w`: `[A-Za-z0-9_]`. -/
def isWordChar (c : Char) : Bool :=
  c.isAlphanum || c = '_'

/-- JavaScript `\s`, restricted to the ASCII range:
space, tab, newline, carriage return, vertical tab, form feed. -/
def isJsSpace (c : Char) : Bool :=
  c = ' ' || c = '\t' || c = '\n' || c = '\r' || c = Char.ofNat 11 || c = Char.ofNat 12

/-- Length of the maximal digit run at the head (greedy `\d+`). -/
def digitRunLen (s : List Char) : Nat :=
  (s.takeWhile Char.isDigit).length

/-- Length of a match of `/\d+\.\d+\.\d+\.\d+/` anchored at the head, if
any.  Since `\d+` can never backtrack into a `'.'`, the greedy parse is
exact. -/
def ipMatchLen (s : List Char) : Option Nat :=
  let d1 := digitRunLen s
  if d1 = 0 then none else
    match s.drop d1 with
    | '.' :: r1 =>
      let d2 := digitRunLen r1
      if d2 = 0 then none else
        match r1.drop d2 with
        | '.' :: r2 =>
          let d3 := digitRunLen r2
          if d3 = 0 then none else
            match r2.drop d3 with
            | '.' :: r3 =>
              let d4 := digitRunLen r3
              if d4 = 0 then none else some (d1 + 1 + d2 + 1 + d3 + 1 + d4)
            | _ => none
        | _ => none
    | _ => none

/-- Fuel-driven loop for `ipScan`.  Each step consumes at least one source
character, so fuel `l.length` always suffices; when fuel runs out the
remainder is copied verbatim (dead code at sufficient fuel, present only to
make the recursion structural). -/
def ipScanF : Nat → List Char → List Char
  | _, [] => []
  | 0, l => l
  | n + 1, c :: rest =>
    match ipMatchLen (c :: rest) with
    | some k => "<ip>".toList ++ ipScanF n (rest.drop (k - 1))
    | none => c :: ipScanF n rest

/-- `.replace(/\d+\.\d+\.\d+\.\d+/g, '<ip>')`. -/
def ipScan (l : List Char) : List Char :=
  ipScanF l.length l

/-- Fuel-driven loop for `portScan`.  A match needs a `':'` directly
followed by a digit; it consumes the colon and the digit run. -/
def portScanF : Nat → List Char → List Char
  | _, [] => []
  | 0, l => l
  | n + 1, c :: rest =>
    if c = ':' && (match rest.head? with | some d => d.isDigit | none => false) then
      ":<port>".toList ++ portScanF n (rest.dropWhile Char.isDigit)
    else
      c :: portScanF n rest

/-- `.replace(/:\d+/g, ':<port>')`. -/
def portScan (l : List Char) : List Char :=
  portScanF l.length l

/-- The character class `[a-f0-9-]` with the `i` flag: `[a-fA-F0-9-]`. -/
def isUuidChar (c : Char) : Bool :=
  c.isDigit || ('a' ≤ c && c ≤ 'f') || ('A' ≤ c && c ≤ 'F') || c = '-'

/-- Fuel-driven loop for `uuidScan`. -/
def uuidScanF : Nat → List Char → List Char
  | _, [] => []
  | 0, l => l
  | n + 1, c :: rest =>
    if c = '/' && 36 ≤ rest.length && (rest.take 36).all isUuidChar then
      "/<uuid>".toList ++ uuidScanF n (rest.drop 36)
    else
      c :: uuidScanF n rest

/-- `.replace(/\/[a-f0-9-]{36}/gi, '/<uuid>')`. -/
def uuidScan (l : List Char) : List Char :=
  uuidScanF l.length l

/-- Is there a word boundary `\b` between the previous character (`none` at
the start of the string) and a word character? -/
def prevBoundary : Option Char → Bool
  | none => true
  | some p => !isWordChar p

/-- Is there a word boundary `\b` between a word character and what follows? -/
def afterBoundary : List Char → Bool
  | [] => true
  | d :: _ => !isWordChar d

/-- Fuel-driven loop for `numScan`.  `prev` is the character of the *source*
string preceding the current position (regex replacement scans the source,
so `\b` context never comes from a replacement token).  A digit run with no
boundary on one side can hide no match start inside itself (digits are word
characters), so it is copied whole. -/
def numScanF : Nat → Option Char → List Char → List Char
  | _, _, [] => []
  | 0, _, l => l
  | n + 1, prev, c :: rest =>
    if c.isDigit && prevBoundary prev then
      let run := c :: rest.takeWhile Char.isDigit
      let rest2 := rest.dropWhile Char.isDigit
      if afterBoundary rest2 then
        "<n>".toList ++ numScanF n (some (run.getLastD c)) rest2
      else
        run ++ numScanF n (some (run.getLastD c)) rest2
    else
      c :: numScanF n (some c) rest

/-- `.replace(/\b\d+\b/g, '<n>')`. -/
def numScan (l : List Char) : List Char :=
  numScanF l.length none l

/-- Fuel-driven loop for `wsScan`. -/
def wsScanF : Nat → List Char → List Char
  | _, [] => []
  | 0, l => l
  | n + 1, c :: rest =>
    if isJsSpace c then
      ' ' :: wsScanF n (rest.dropWhile isJsSpace)
    else
      c :: wsScanF n rest

/-- `.replace(/\s+/g, ' ')`. -/
def wsScan (l : List Char) : List Char :=
  wsScanF l.length l

/-- `.trim()`: strip whitespace from both ends. -/
def jsTrim (s : List Char) : List Char :=
  ((s.dropWhile isJsSpace).reverse.dropWhile isJsSpace).reverse

/-- `generateFingerprint` before the final `slice(0, 100)`:
lower-case, `<ip>`, `:<port>`, `/<uuid>`, `<n>`, collapse whitespace, trim. -/
def fingerprintPre (message : String) : List Char :=
  jsTrim (wsScan (numScan (uuidScan (portScan (ipScan (message.toList.map Char.toLower))))))

/-- `generateFingerprint(message)`. -/
def generateFingerprint (message : String) : String :=
  String.mk ((fingerprintPre message).take 100)

/-! #### Fixed-point conditions for the normalization pipeline

Each condition says that one stage of `generateFingerprint` finds nothing
to rewrite.  They are used to show that a normalized string (that the final
`slice(0, 100)` did not cut) is a fixed point of the whole pipeline. -/

/-- The character preceding the current position once `a` has been
consumed, starting from `prev`. -/
def prevAt (prev : Option Char) (a : List Char) : Option Char :=
  match a.getLast? with
  | some c => some c
  | none => prev

/-- No uppercase ASCII letter occurs (so `toLowerCase` is the identity). -/
def NoUpper (y : List Char) : Prop :=
  ∀ c ∈ y, ¬(65 ≤ c.toNat ∧ c.toNat ≤ 90)

/-- No suffix matches `/\d+\.\d+\.\d+\.\d+/`. -/
def NoIp (y : List Char) : Prop :=
  ∀ s, s <:+ y → ipMatchLen s = none

/-- No `':'` is immediately followed by a digit (no `/:\d+/` match). -/
def NoCD (y : List Char) : Prop :=
  ∀ d t, (':' :: d :: t) <:+ y → d.isDigit = false

/-- No `'/'` is followed by 36 characters of `[a-fA-F0-9-]`
(no `/\/[a-f0-9-]{36}/i` match). -/
def NoUuid (y : List Char) : Prop :=
  ∀ t, ('/' :: t) <:+ y → (36 ≤ t.length && (t.take 36).all isUuidChar) = false

/-- Starting with `prev` before the string, no position begins a
`/\b\d+\b/` match. -/
def NumOk (prev : Option Char) (y : List Char) : Prop :=
  ∀ a c t, y = a ++ c :: t →
    (c.isDigit && prevBoundary (prevAt prev a) &&
      afterBoundary (t.dropWhile Char.isDigit)) = false

/-- Whitespace is collapsed: every whitespace character is a plain space
and no space is followed by whitespace. -/
def WsOk (y : List Char) : Prop :=
  (∀ c ∈ y, isJsSpace c = true → c = ' ') ∧
    (∀ d t, (' ' :: d :: t) <:+ y → isJsSpace d = false)

/-- `haystack.includes(needle)`. -/
def strIncludes (haystack needle : String) : Bool :=
  decide (needle.toList <:+: haystack.toList)

/-- `categorizError(message)` (sic): first matching keyword rule wins. -/
def categorizError (message : String) : String :=
  let lowerMsg := jsToLower message
  if strIncludes lowerMsg "econnrefused" || strIncludes lowerMsg "connection" then "network"
  else if strIncludes lowerMsg "permission" || strIncludes lowerMsg "eacces" then "filesystem"
  else if strIncludes lowerMsg "not found" || strIncludes lowerMsg "enoent" then "filesystem"
  else if strIncludes lowerMsg "timeout" then "network"
  else if strIncludes lowerMsg "database" || strIncludes lowerMsg "sql" then "database"
  else if strIncludes lowerMsg "memory" || strIncludes lowerMsg "heap" then "memory"
  else "general"

/-- One grouped row from the SLS log database (`interface RecurringError`). -/
structure RecurringError where
  message : String
  count : Nat
  level : String
  service : Option String
  firstSeen : Int
  lastSeen : Int
  fingerprint : Option String
deriving DecidableEq, Repr

/-- The regex metacharacter class `[.*+?^${}()|[\]\\]` escaped when a new
matcher is synthesized from a raw message. -/
def isRegexMeta (c : Char) : Bool :=
  c = '.' || c = '*' || c = '+' || c = '?' || c = '^' || c = '$' ||
  c = Char.ofNat 123 || c = Char.ofNat 125 ||
  c = '(' || c = ')' || c = '|' || c = '[' || c = ']' || c = '\\'

/-- `.replace(/[.*+?^${}()|[\]\\]/g, '\\$&')`: prefix each metacharacter
with a backslash. -/
def escapeRegexChars (s : List Char) : List Char :=
  s.flatMap (fun c => if isRegexMeta c then ['\\', c] else [c])

/-- The new pattern built by `reflectCommand` for a row that matched no
known pattern: `createPattern({...})` with the listed overrides (the
`createPattern` defaults supply `feedback: {helpful: 0, harmful: 0}`; the
`id` comes from `generatePatternId`, here passed in). -/
def newPatternFor (id : String) (row : RecurringError) : Pattern :=
  { id := id
    fingerprint := row.fingerprint.getD (generateFingerprint row.message)
    pattern := String.mk ((escapeRegexChars row.message.toList).take 50) ++ ".*"
    severity := if 10 ≤ row.count then .high else if 5 ≤ row.count then .medium else .low
    category := categorizError row.message
    title := row.message.take 60 ++ (if 60 < row.message.length then "..." else "")
    symptoms := [row.message]
    root_causes := ["Unknown - investigate logs"]
    fixes := []
    feedback := { helpful := 0, harmful := 0 } }

/-- A classified row (the `suggestions` entries of `reflectCommand`). -/
structure Suggestion where
  error : RecurringError
  pattern : Pattern
  isNew : Bool
deriving DecidableEq, Repr

/-- Per-row classification of `reflectCommand`: the row is known when
`matches.length > 0 && matches[0].score > 80` (the matched record is
attached unchanged), otherwise a new pattern is created. -/
def classifyRow (rx : String → Option (String → Bool)) (playbook : Playbook)
    (id : String) (row : RecurringError) : Suggestion :=
  match findMatchingPatterns rx playbook row.message 1 with
  | m :: _ =>
    if 80 < m.score then { error := row, pattern := m.pattern, isNew := false }
    else { error := row, pattern := newPatternFor id row, isNew := true }
  | [] => { error := row, pattern := newPatternFor id row, isNew := true }

/-- The classification loop of `reflectCommand` over all rows.  `rands`
models the successive draws of `Math.floor(Math.random() * 1000)`; one is
consumed per new pattern.  Matching always runs against the playbook as
loaded (new patterns are pushed only after the loop). -/
def reflectLoop (rx : String → Option (String → Bool)) (playbook : Playbook)
    (rands : List Nat) : List RecurringError → List Suggestion × List Pattern
  | [] => ([], [])
  | row :: rest =>
    let s := classifyRow rx playbook (generatePatternId (rands.headD 0)) row
    if s.isNew then
      let (sugs, pats) := reflectLoop rx playbook rands.tail rest
      (s :: sugs, s.pattern :: pats)
    else
      let (sugs, pats) := reflectLoop rx playbook rands rest
      (s :: sugs, pats)

/-- The pure core of `reflectCommand`: classify every row, then (unless
`dryRun`) push the new patterns onto the playbook and save it.  Returns the
saved playbook (the loaded one when `dryRun` or nothing new) and the
suggestions. -/
def reflectRun (rx : String → Option (String → Bool)) (playbook : Playbook)
    (rands : List Nat) (rows : List RecurringError) (dryRun : Bool) :
    Playbook × List Suggestion :=
  let (sugs, pats) := reflectLoop rx playbook rands rows
  (if dryRun then playbook else { patterns := playbook.patterns ++ pats }, sugs)

/-! ### TF-IDF embeddings (`src/core/embeddings.ts`)

Weights and magnitudes involve `Math.sqrt` and `Math.log`, so this part is
modelled over `ℝ` (and is therefore noncomputable in Lean).  A JavaScript
`Map` from terms to weights is modelled as its key `Finset` plus a weight
function; iteration over `Map` entries becomes a `Finset` sum, which is
faithful because the only consumers (`sumSquares`, the dot product) are
order-independent sums. -/

/-- `tokenize(text)`: lower-case, replace `[^a-z0-9_\s]` by a space, split
on `\s+`, keep terms of length ≥ 2. -/
def tokenize (text : String) : List String :=
  let replaced := (text.toList.map Char.toLower).map
    (fun c => if isKeywordChar c || isJsSpace c then c else ' ')
  (splitRuns (fun c => !isJsSpace c) replaced).filter (fun term => 2 ≤ term.length)

/-- The term-frequency map of `computeTf` (counts normalized by document
length), with `ℚ` entries. -/
structure TfMap where
  support : Finset String
  weight : String → ℚ

/-- `computeTf(terms)`: occurrence count of each term divided by the
document length. -/
def computeTf (terms : List String) : TfMap :=
  { support := terms.toFinset
    weight := fun t => (terms.count t : ℚ) / (terms.length : ℚ) }

/-- A TF-IDF document representation (`interface TfIdfVector`). -/
structure TfIdfVector where
  support : Finset String
  weight : String → ℝ
  magnitude : ℝ

/-- `idf.get(term) || 1`: the stored IDF value unless it is absent or `0`
(falsy), in which case `1`. -/
noncomputable def effIdf (idf : String → Option ℝ) (term : String) : ℝ :=
  match idf term with
  | some v => if v = 0 then 1 else v
  | none => 1

/-- `toVector(tf, idf)`: multiply each term frequency by its IDF and cache
the Euclidean magnitude. -/
noncomputable def toVector (tf : TfMap) (idf : String → Option ℝ) : TfIdfVector :=
  { support := tf.support
    weight := fun t => (tf.weight t : ℝ) * effIdf idf t
    magnitude := Real.sqrt (∑ t ∈ tf.support,
      ((tf.weight t : ℝ) * effIdf idf t) * ((tf.weight t : ℝ) * effIdf idf t)) }

/-- The dot-product loop of `cosineSimilarity`: iterate over the first
vector's terms, multiplying with the second vector's entry when present. -/
noncomputable def dotProduct (v1 v2 : TfIdfVector) : ℝ :=
  ∑ t ∈ v1.support, if t ∈ v2.support then v1.weight t * v2.weight t else 0

/-- `cosineSimilarity(v1, v2)`: 0 when either magnitude is 0, otherwise the
dot product over the magnitude product. -/
noncomputable def cosineSimilarity (v1 v2 : TfIdfVector) : ℝ :=
  if v1.magnitude = 0 ∨ v2.magnitude = 0 then 0
  else dotProduct v1 v2 / (v1.magnitude * v2.magnitude)

/-- The invariant every vector built or loaded by the embeddings module
satisfies: nonnegative weights on the support, and the cached magnitude is
the Euclidean norm of the weights (both `toVector` and the
database-loading path of `findSimilar` compute it exactly so). -/
def WellFormedVec (v : TfIdfVector) : Prop :=
  (∀ t ∈ v.support, 0 ≤ v.weight t) ∧
    v.magnitude = Real.sqrt (∑ t ∈ v.support, v.weight t * v.weight t)

/-- The document frequency of a term: how many documents contain it
(the inner loop of `computeIdf`). -/
def docFreq (documents : List (List String)) (term : String) : Nat :=
  (documents.filter (fun doc => doc.contains term)).length

/-- `computeIdf(documents, vocabulary)`: the smoothed
`log((docCount + 1) / (termDocCount + 1)) + 1` for each vocabulary term.
The resulting map has exactly the vocabulary as its key set. -/
noncomputable def computeIdf (documents : List (List String)) (vocabulary : Finset String) :
    String → Option ℝ :=
  fun term =>
    if term ∈ vocabulary then
      some (Real.log (((documents.length : ℝ) + 1) / ((docFreq documents term : ℝ) + 1)) + 1)
    else none

/-- `patternToText(pattern)`: the searchable composite text. -/
def patternToText (p : Pattern) : String :=
  String.intercalate " "
    ([p.title, p.category] ++ p.symptoms ++ p.root_causes ++
      [String.intercalate " " (p.fixes.map (fun f => f.step))])

/-- The tokenized document of one pattern in `buildFromPatterns`. -/
def patternDoc (p : Pattern) : List String :=
  tokenize (patternToText p)

/-- The vocabulary accumulated by `buildFromPatterns`: every term of every
pattern document. -/
def buildVocabulary (patterns : List Pattern) : Finset String :=
  (patterns.flatMap patternDoc).toFinset

/-- The IDF table built by `buildFromPatterns`. -/
noncomputable def buildIdf (patterns : List Pattern) : String → Option ℝ :=
  computeIdf (patterns.map patternDoc) (buildVocabulary patterns)

/-- The vector `buildFromPatterns` computes and stores for one pattern. -/
noncomputable def storedVector (patterns : List Pattern) (p : Pattern) : TfIdfVector :=
  toVector (computeTf (patternDoc p)) (buildIdf patterns)

/-- The query vector of `findSimilar` (against the current IDF table). -/
noncomputable def queryVector (patterns : List Pattern) (query : String) : TfIdfVector :=
  toVector (computeTf (tokenize query)) (buildIdf patterns)

/-! ### Concrete fixtures used by witnesses -/

/-- A concrete pattern record (from the repository's own tests). -/
def samplePattern : Pattern :=
  { id := "slsm-001", fingerprint := "conn-refused", pattern := "ECONNREFUSED",
    severity := .high, category := "network", title := "Connection refused",
    symptoms := ["ECONNREFUSED 127.0.0.1:5432"], root_causes := ["Service down"],
    fixes := [], feedback := { helpful := 2, harmful := 0 } }

/-- An untyped pattern value with severity `"critical"` (invalid) and id
`slsm-001` (from the repository's validation test). -/
def jsPatternA : JsValue :=
  .obj [("id", .str "slsm-001"), ("fingerprint", .str "a"), ("pattern", .str "test"),
        ("severity", .str "critical"), ("category", .str "general"),
        ("title", .str "Bad severity"), ("symptoms", .arr []),
        ("root_causes", .arr []), ("fixes", .arr []),
        ("feedback", .obj [("helpful", .num 0), ("harmful", .num 0)])]

/-- An untyped pattern value with valid fields but the same id `slsm-001`. -/
def jsPatternB : JsValue :=
  .obj [("id", .str "slsm-001"), ("fingerprint", .str "b"), ("pattern", .str "test2"),
        ("severity", .str "low"), ("category", .str "general"),
        ("title", .str "Duplicate ID"), ("symptoms", .arr []),
        ("root_causes", .arr []), ("fixes", .arr []),
        ("feedback", .obj [("helpful", .num 0), ("harmful", .num 0)])]

/-! ### Helper lemmas -/

/-- `find?` success splits the list at the first hit; `updateFirstById`
rewrites exactly that element. -/
theorem updateFirstById_decomp {l : List Pattern} {id : String} {p : Pattern}
    (h : l.find? (fun q => q.id = id) = some p) (f : Pattern → Pattern) :
    ∃ front back, l = front ++ p :: back ∧ (∀ q ∈ front, q.id ≠ id) ∧
      updateFirstById l id f = front ++ f p :: back := by
  induction l with
  | nil => simp at h
  | cons a rest ih =>
    by_cases ha : a.id = id
    · have hap : a = p := by
        rw [List.find?_cons_of_pos _ (by simpa using ha)] at h
        exact Option.some.inj h
      refine ⟨[], rest, by simp [hap], by simp, ?_⟩
      subst hap
      simp [updateFirstById, ha]
    · rw [List.find?_cons_of_neg _ (by simpa using ha)] at h
      obtain ⟨front, back, hfb, hfr, hupd⟩ := ih h
      refine ⟨a :: front, back, by simp [hfb], ?_, ?_⟩
      · intro q hq
        rcases List.mem_cons.1 hq with rfl | hq2
        · exact ha
        · exact hfr q hq2
      · simp [updateFirstById, ha, hupd]

/-- `updateFirstById` preserves the list length. -/
theorem updateFirstById_length (l : List Pattern) (id : String) (f : Pattern → Pattern) :
    (updateFirstById l id f).length = l.length := by
  induction l with
  | nil => rfl
  | cons a rest ih =>
    simp only [updateFirstById]
    split <;> simp [ih]

/-- Every element of `updateFirstById l id f` is the original element at
that position or `f` of it. -/
theorem updateFirstById_get (l : List Pattern) (id : String) (f : Pattern → Pattern)
    (i : Nat) (h1 : i < l.length) (h2 : i < (updateFirstById l id f).length) :
    (updateFirstById l id f).get ⟨i, h2⟩ = l.get ⟨i, h1⟩ ∨
      (updateFirstById l id f).get ⟨i, h2⟩ = f (l.get ⟨i, h1⟩) := by
  induction l generalizing i with
  | nil => simp at h1
  | cons a rest ih =>
    by_cases ha : a.id = id
    · have heq : updateFirstById (a :: rest) id f = f a :: rest := by
        simp [updateFirstById, ha]
      cases i with
      | zero => right; simp [heq]
      | succ n =>
        left
        calc (updateFirstById (a :: rest) id f).get ⟨n + 1, h2⟩
            = (f a :: rest).get ⟨n + 1, heq ▸ h2⟩ := List.get_of_eq heq _
          _ = (a :: rest).get ⟨n + 1, h1⟩ := by simp
    · have heq : updateFirstById (a :: rest) id f = a :: updateFirstById rest id f := by
        simp [updateFirstById, ha]
      cases i with
      | zero => left; simp [heq]
      | succ n =>
        have h1r : n < rest.length := by simpa using h1
        have h2r : n < (updateFirstById rest id f).length := by
          rw [updateFirstById_length]; exact h1r
        have hs : (updateFirstById (a :: rest) id f).get ⟨n + 1, h2⟩ =
            (updateFirstById rest id f).get ⟨n, h2r⟩ := by
          calc (updateFirstById (a :: rest) id f).get ⟨n + 1, h2⟩
              = (a :: updateFirstById rest id f).get ⟨n + 1, heq ▸ h2⟩ :=
                List.get_of_eq heq _
            _ = (updateFirstById rest id f).get ⟨n, h2r⟩ := by simp
        rw [hs]
        simpa using ih n h1r h2r

/-- Membership is invariant under stable insertion. -/
theorem mem_insertByScoreDesc {a r : MatchResult} {l : List MatchResult} :
    a ∈ insertByScoreDesc r l ↔ a = r ∨ a ∈ l := by
  induction l with
  | nil => simp [insertByScoreDesc]
  | cons x xs ih =>
    simp only [insertByScoreDesc]
    split
    · simp
    · rw [List.mem_cons, ih, List.mem_cons]
      tauto

/-- Membership is invariant under the stable sort. -/
theorem mem_sortByScoreDesc {a : MatchResult} {l : List MatchResult} :
    a ∈ sortByScoreDesc l ↔ a ∈ l := by
  induction l with
  | nil => simp [sortByScoreDesc]
  | cons x xs ih =>
    simp only [sortByScoreDesc, List.foldr] at ih ⊢
    rw [mem_insertByScoreDesc, ih, List.mem_cons]

/-- Every result `matchEntry` can produce carries the pattern it was
computed for. -/
theorem matchEntry_pattern_eq {rx : String → Option (String → Bool)}
    {keywords : List String} {errorMessage : String} {p : Pattern} {r : MatchResult}
    (h : matchEntry rx keywords errorMessage p = some r) : r.pattern = p := by
  unfold matchEntry at h
  rcases hrx : rx p.pattern with _ | test <;> rw [hrx] at h <;> simp only at h
  · split at h
    · exact congrArg MatchResult.pattern (Option.some.inj h) ▸ rfl
    · exact absurd h (by simp)
  · split at h
    · exact congrArg MatchResult.pattern (Option.some.inj h) ▸ rfl
    · split at h
      · exact congrArg MatchResult.pattern (Option.some.inj h) ▸ rfl
      · exact absurd h (by simp)

/-! ### Claim theorems -/

/-- Claim C3: for any two keyword lists, `calculateScore` returns a value in
`[0, 100]`, returns exactly `0` whenever either list is empty, and for
non-empty lists equals the Jaccard similarity of the corresponding sets
(intersection size over union size) times 100. -/
theorem claim_C3_calculateScore_jaccard (keywords1 keywords2 : List String) :
    (0 ≤ calculateScore keywords1 keywords2 ∧ calculateScore keywords1 keywords2 ≤ 100)
    ∧ (keywords1 = [] ∨ keywords2 = [] → calculateScore keywords1 keywords2 = 0)
    ∧ (keywords1 ≠ [] → keywords2 ≠ [] →
        calculateScore keywords1 keywords2 =
          ((keywords1.toFinset ∩ keywords2.toFinset).card : ℚ) /
            ((keywords1.toFinset ∪ keywords2.toFinset).card : ℚ) * 100) := by
  unfold calculateScore
  simp only [Finset.filter_mem_eq_inter]
  by_cases h1 : keywords1 = []
  · subst h1; simp
  · by_cases h2 : keywords2 = []
    · subst h2; simp
    · have hne : (keywords1.isEmpty || keywords2.isEmpty) = false := by
        simp [List.isEmpty_iff, h1, h2]
      rw [hne]
      simp only [Bool.false_eq_true, if_false]
      have hcard : 0 < ((keywords1.toFinset ∪ keywords2.toFinset).card : ℚ) := by
        have : (keywords1.toFinset ∪ keywords2.toFinset).Nonempty :=
          Finset.Nonempty.inl ((List.toFinset_nonempty_iff keywords1).2 h1)
        exact_mod_cast Finset.card_pos.2 this
      refine ⟨⟨?_, ?_⟩, ?_, ?_⟩
      · positivity
      · have hle : ((keywords1.toFinset ∩ keywords2.toFinset).card : ℚ) ≤
            ((keywords1.toFinset ∪ keywords2.toFinset).card : ℚ) := by
          exact_mod_cast Finset.card_le_card Finset.inter_subset_union
        calc ((keywords1.toFinset ∩ keywords2.toFinset).card : ℚ) /
              ((keywords1.toFinset ∪ keywords2.toFinset).card : ℚ) * 100
            ≤ 1 * 100 := by
              apply mul_le_mul_of_nonneg_right _ (by norm_num)
              exact (div_le_one hcard).2 hle
          _ = 100 := by norm_num
      · rintro (rfl | rfl) <;> simp_all
      · intro _ _; trivial

/-- Witness for C3 at concrete inputs from the repository's own tests. -/
theorem claim_C3_witness :
    calculateScore ["database"] [] = 0 ∧
    calculateScore ["database", "timeout"] ["database"] = 50 := by
  constructor
  · exact (claim_C3_calculateScore_jaccard ["database"] []).2.1 (Or.inr rfl)
  · have h := (claim_C3_calculateScore_jaccard ["database", "timeout"] ["database"]).2.2
      (by simp) (by simp)
    rw [h]
    have hi : ((["database", "timeout"].toFinset ∩ ["database"].toFinset).card : ℚ) = 1 := by
      decide
    have hu : ((["database", "timeout"].toFinset ∪ ["database"].toFinset).card : ℚ) = 2 := by
      decide
    rw [hi, hu]; norm_num

/-- Claim C1: if a pattern's `pattern` field compiles as a case-insensitive
regex (`rx p.pattern = some test`) and the regex matches the query, then the
per-pattern scoring step records exactly score 100 with no keyword scoring,
that entry is in the loop's `results` whenever the pattern is in the
playbook, and every result `findMatchingPatterns` returns for that pattern
has score exactly 100, regardless of keyword overlap. -/
theorem claim_C1_regex_score_100 (rx : String → Option (String → Bool))
    (playbook : Playbook) (errorMessage : String) (limit : Nat) (p : Pattern)
    (test : String → Bool) (hrx : rx p.pattern = some test)
    (hmatch : test errorMessage = true) :
    matchEntry rx (extractKeywords errorMessage) errorMessage p =
      some { pattern := p, score := 100,
             matchedKeywords := extractKeywords errorMessage }
    ∧ (p ∈ playbook.patterns →
        { pattern := p, score := 100, matchedKeywords := extractKeywords errorMessage } ∈
          playbook.patterns.filterMap (matchEntry rx (extractKeywords errorMessage) errorMessage))
    ∧ ∀ r ∈ findMatchingPatterns rx playbook errorMessage limit,
        r.pattern = p → r.score = 100 := by
  have hentry : matchEntry rx (extractKeywords errorMessage) errorMessage p =
      some { pattern := p, score := 100,
             matchedKeywords := extractKeywords errorMessage } := by
    unfold matchEntry
    rw [hrx]
    simp only [hmatch, if_true]
  refine ⟨hentry, ?_, ?_⟩
  · intro hp
    exact List.mem_filterMap.2 ⟨p, hp, hentry⟩
  · intro r hr hrp
    have hr1 : r ∈ sortByScoreDesc (playbook.patterns.filterMap
        (matchEntry rx (extractKeywords errorMessage) errorMessage)) :=
      List.mem_of_mem_take hr
    have hr2 : r ∈ playbook.patterns.filterMap
        (matchEntry rx (extractKeywords errorMessage) errorMessage) :=
      mem_sortByScoreDesc.1 hr1
    obtain ⟨q, _, hq⟩ := List.mem_filterMap.1 hr2
    have hqp : q = p := by rw [← hrp]; exact (matchEntry_pattern_eq hq).symm
    subst hqp
    rw [hentry] at hq
    have := Option.some.inj hq
    rw [← this]

/-- Witness for C1 on the spec's example: matcher `"ECONNREFUSED"` against
query `"ECONNREFUSED 127.0.0.1:5432"` scores 100. -/
theorem claim_C1_witness :
    matchEntry (fun s => if s = "ECONNREFUSED" then
        some (fun q => q = "ECONNREFUSED 127.0.0.1:5432") else none)
      (extractKeywords "ECONNREFUSED 127.0.0.1:5432")
      "ECONNREFUSED 127.0.0.1:5432"
      { id := "slsm-001", fingerprint := "conn-refused",
        pattern := "ECONNREFUSED", severity := .high,
        category := "network", title := "Connection refused",
        symptoms := ["ECONNREFUSED 127.0.0.1:5432"],
        root_causes := ["Service down"], fixes := [],
        feedback := { helpful := 0, harmful := 0 } } =
    some { pattern := { id := "slsm-001", fingerprint := "conn-refused",
                        pattern := "ECONNREFUSED", severity := .high,
                        category := "network", title := "Connection refused",
                        symptoms := ["ECONNREFUSED 127.0.0.1:5432"],
                        root_causes := ["Service down"], fixes := [],
                        feedback := { helpful := 0, harmful := 0 } },
           score := 100,
           matchedKeywords := extractKeywords "ECONNREFUSED 127.0.0.1:5432" } :=
  (claim_C1_regex_score_100
    (fun s => if s = "ECONNREFUSED" then
        some (fun q => q = "ECONNREFUSED 127.0.0.1:5432") else none)
    { patterns := [{ id := "slsm-001", fingerprint := "conn-refused",
                     pattern := "ECONNREFUSED", severity := .high,
                     category := "network", title := "Connection refused",
                     symptoms := ["ECONNREFUSED 127.0.0.1:5432"],
                     root_causes := ["Service down"], fixes := [],
                     feedback := { helpful := 0, harmful := 0 } }] }
    "ECONNREFUSED 127.0.0.1:5432" 10
    { id := "slsm-001", fingerprint := "conn-refused",
      pattern := "ECONNREFUSED", severity := .high,
      category := "network", title := "Connection refused",
      symptoms := ["ECONNREFUSED 127.0.0.1:5432"],
      root_causes := ["Service down"], fixes := [],
      feedback := { helpful := 0, harmful := 0 } }
    (fun q => q = "ECONNREFUSED 127.0.0.1:5432") rfl (by decide)).1

/-- Case split of `markRun` on a valid feedback kind. -/
theorem markRun_of_valid (playbook : Playbook) (id feedback : String)
    (h : jsToLower feedback = "helpful" ∨ jsToLower feedback = "harmful") :
    markRun playbook id feedback =
      match findPatternById playbook id with
      | none => .error ("Pattern not found: " ++ id)
      | some _ => .ok { patterns := updateFirstById playbook.patterns id (fun p =>
          recordFeedback p
            (if jsToLower feedback = "helpful" then .helpful else .harmful)) } := by
  unfold markRun
  rw [if_pos h]

/-- Claim C7: recording feedback with an unknown pattern id surfaces an
error and saves nothing; with a valid id and type it replaces exactly the
first pattern with that id by `recordFeedback` of it (the named counter + 1,
everything else verbatim); and whenever `markRun` saves a playbook, no
feedback counter of any pattern has decreased. -/
theorem claim_C7_feedback_counters (playbook : Playbook) (id : String) (feedback : String) :
    (findPatternById playbook id = none →
      ∃ e, markRun playbook id feedback = .error e)
    ∧ (∀ p, findPatternById playbook id = some p →
        (jsToLower feedback = "helpful" ∨ jsToLower feedback = "harmful") →
        ∃ front back, playbook.patterns = front ++ p :: back
          ∧ (∀ q ∈ front, q.id ≠ id)
          ∧ markRun playbook id feedback = .ok ⟨front ++
              recordFeedback p
                (if jsToLower feedback = "helpful" then .helpful else .harmful) :: back⟩)
    ∧ (∀ saved, markRun playbook id feedback = .ok saved →
        saved.patterns.length = playbook.patterns.length ∧
        ∀ i (h1 : i < playbook.patterns.length) (h2 : i < saved.patterns.length),
          (playbook.patterns.get ⟨i, h1⟩).feedback.helpful ≤
              (saved.patterns.get ⟨i, h2⟩).feedback.helpful ∧
            (playbook.patterns.get ⟨i, h1⟩).feedback.harmful ≤
              (saved.patterns.get ⟨i, h2⟩).feedback.harmful) := by
  refine ⟨?_, ?_, ?_⟩
  · intro hnone
    by_cases hc : jsToLower feedback = "helpful" ∨ jsToLower feedback = "harmful"
    · rw [markRun_of_valid playbook id feedback hc, hnone]
      exact ⟨_, rfl⟩
    · refine ⟨"feedback must be \"helpful\" or \"harmful\", got \"" ++ feedback ++ "\"", ?_⟩
      unfold markRun
      rw [if_neg hc]
  · intro p hfind hvalid
    obtain ⟨front, back, hfb, hfr, hupd⟩ :=
      updateFirstById_decomp hfind
        (fun q => recordFeedback q
          (if jsToLower feedback = "helpful" then .helpful else .harmful))
    refine ⟨front, back, hfb, hfr, ?_⟩
    rw [markRun_of_valid playbook id feedback hvalid, hfind]
    simp only [hupd]
  · intro saved hsaved
    by_cases hc : jsToLower feedback = "helpful" ∨ jsToLower feedback = "harmful"
    · rw [markRun_of_valid playbook id feedback hc] at hsaved
      rcases hfind : findPatternById playbook id with _ | p <;> rw [hfind] at hsaved
      · exact absurd hsaved (by simp)
      · simp only [Except.ok.injEq] at hsaved
        subst hsaved
        constructor
        · exact updateFirstById_length _ _ _
        · intro i h1 h2
          rcases updateFirstById_get playbook.patterns id _ i h1 h2 with heq | heq <;>
            rw [heq]
          · exact ⟨le_refl _, le_refl _⟩
          · rcases hft : (if jsToLower feedback = "helpful" then FeedbackType.helpful
                else FeedbackType.harmful) with _ | _ <;>
              simp [recordFeedback, hft]
    · have : markRun playbook id feedback =
          .error ("feedback must be \"helpful\" or \"harmful\", got \"" ++ feedback ++ "\"") := by
        unfold markRun
        rw [if_neg hc]
      rw [this] at hsaved
      exact absurd hsaved (by simp)

/-- Witness for C7: marking a known pattern helpful bumps exactly its
helpful counter; an unknown id yields an error. -/
theorem claim_C7_witness :
    (∃ e, markRun { patterns := [samplePattern] } "slsm-999" "helpful" = .error e)
    ∧ (∃ front back,
        ({ patterns := [samplePattern] } : Playbook).patterns =
            front ++ samplePattern :: back
          ∧ (∀ q ∈ front, q.id ≠ "slsm-001")
          ∧ markRun { patterns := [samplePattern] } "slsm-001" "helpful" =
              .ok ⟨front ++
                recordFeedback samplePattern
                  (if jsToLower "helpful" = "helpful" then .helpful else .harmful)
                :: back⟩) := by
  constructor
  · exact (claim_C7_feedback_counters { patterns := [samplePattern] }
      "slsm-999" "helpful").1 (by decide)
  · exact (claim_C7_feedback_counters { patterns := [samplePattern] }
      "slsm-001" "helpful").2.1 samplePattern (by decide) (Or.inl (by decide))

/-- Claim C5: a row is classified as known exactly when the best match
(limit 1) scores strictly more than 80; a known row carries the matched
pattern record unchanged; a new row's severity is high when `count ≥ 10`,
medium when `count ≥ 5`, low otherwise. -/
theorem claim_C5_known_threshold_severity (rx : String → Option (String → Bool))
    (playbook : Playbook) (id : String) (row : RecurringError) :
    ((classifyRow rx playbook id row).isNew = false ↔
      ∃ m rest, findMatchingPatterns rx playbook row.message 1 = m :: rest ∧ 80 < m.score)
    ∧ (∀ m rest, findMatchingPatterns rx playbook row.message 1 = m :: rest →
        80 < m.score →
        (classifyRow rx playbook id row).pattern = m.pattern ∧
          (classifyRow rx playbook id row).error = row)
    ∧ ((classifyRow rx playbook id row).isNew = true →
        (classifyRow rx playbook id row).pattern.severity =
          (if 10 ≤ row.count then Severity.high
           else if 5 ≤ row.count then Severity.medium else Severity.low)) := by
  unfold classifyRow
  rcases hm : findMatchingPatterns rx playbook row.message 1 with _ | ⟨m, rest⟩
  · refine ⟨by simp, by simp, ?_⟩
    intro _
    rfl
  · dsimp only
    by_cases hs : 80 < m.score
    · rw [if_pos hs]
      refine ⟨iff_of_true rfl ⟨m, rest, rfl, hs⟩, ?_, ?_⟩
      · intro m2 rest2 h _
        rw [List.cons.injEq] at h
        rw [← h.1]
        exact ⟨rfl, rfl⟩
      · intro h
        exact absurd h (by simp)
    · rw [if_neg hs]
      refine ⟨?_, ?_, fun _ => rfl⟩
      · refine iff_of_false (by simp) ?_
        rintro ⟨m2, rest2, h, hs2⟩
        rw [List.cons.injEq] at h
        exact hs (h.1 ▸ hs2)
      · intro m2 rest2 h hs2
        rw [List.cons.injEq] at h
        exact absurd (h.1 ▸ hs2) hs

/-- Witness for C5: a regex hit on the sample pattern (score 100 > 80)
classifies the row as known and attaches the record unchanged; an
unmatched row with count 7 becomes a new medium-severity pattern. -/
theorem claim_C5_witness :
    (classifyRow (fun _ => some (fun _ => true)) { patterns := [samplePattern] }
        "slsm-007"
        { message := "ECONNREFUSED 127.0.0.1:5432", count := 12, level := "error",
          service := none, firstSeen := 0, lastSeen := 0,
          fingerprint := some "fp-a" }).pattern = samplePattern
    ∧ (classifyRow (fun _ => none) { patterns := [] } "slsm-007"
        { message := "Disk full on /dev/sda1", count := 7, level := "error",
          service := none, firstSeen := 0, lastSeen := 0,
          fingerprint := some "fp-b" }).pattern.severity = Severity.medium := by
  constructor
  · exact ((claim_C5_known_threshold_severity (fun _ => some (fun _ => true))
      { patterns := [samplePattern] } "slsm-007"
      { message := "ECONNREFUSED 127.0.0.1:5432", count := 12, level := "error",
        service := none, firstSeen := 0, lastSeen := 0,
        fingerprint := some "fp-a" }).2.1
      { pattern := samplePattern, score := 100,
        matchedKeywords := extractKeywords "ECONNREFUSED 127.0.0.1:5432" } []
      (by decide) (by decide)).1
  · exact ((claim_C5_known_threshold_severity (fun _ => none) { patterns := [] }
      "slsm-007"
      { message := "Disk full on /dev/sda1", count := 7, level := "error",
        service := none, firstSeen := 0, lastSeen := 0,
        fingerprint := some "fp-b" }).2.2 (by decide)).trans (by decide)

/-- Claim C8 exhibits a code bug: `generatePatternId` draws a random
three-digit id with no uniqueness check, so one `reflect` run whose two new
patterns draw the same random number (here 7 twice) saves a playbook with
two patterns sharing the id `slsm-007` — the very state the module's own
`validatePlaybook` rejects as `Duplicate pattern ID`. -/
theorem claim_C8_duplicate_ids_bug :
    ¬ ((reflectRun (fun _ => none) { patterns := [] } [7, 7]
        [{ message := "ECONNREFUSED 127.0.0.1:5432", count := 12, level := "error",
           service := none, firstSeen := 0, lastSeen := 0, fingerprint := some "fp-a" },
         { message := "Disk full on /dev/sda1", count := 11, level := "error",
           service := none, firstSeen := 0, lastSeen := 0, fingerprint := some "fp-b" }]
        false).1.patterns.map Pattern.id).Nodup := by
  decide

/-- The severity error reported by `validatePattern` for a non-null object
pattern whose `severity` check fails. -/
theorem validatePattern_severity_error (rxOk : String → Bool) (p : JsValue) (idx : Nat)
    (hobj : (!jsTypeofObject p || jsIsNull p) = false)
    (hsev : jsSeverityValid p = false) :
    ({ path := "patterns[" ++ toString idx ++ "]" ++ ".severity",
       message := "severity must be one of: low, medium, high" } : ValidationError) ∈
      validatePattern rxOk p idx := by
  unfold validatePattern
  rw [hobj]
  simp [hsev]

/-- If `s` was already seen, a later pattern with id `s` produces a
duplicate-id error at its index. -/
theorem validatePlaybookLoop_dup_of_seen (rxOk : String → Bool) :
    ∀ (ps : List JsValue) (i0 : Nat) (seen : List String) (j : Nat)
      (hj : j < ps.length) (s : String),
      seen.contains s = true → jsPatternId (ps.get ⟨j, hj⟩) = some s →
      ({ path := "patterns[" ++ toString (i0 + j) ++ "].id",
         message := "Duplicate pattern ID: " ++ s } : ValidationError) ∈
        validatePlaybookLoop rxOk i0 seen ps := by
  intro ps
  induction ps with
  | nil => intro i0 seen j hj; simp at hj
  | cons p rest ih =>
    intro i0 seen j hj s hseen hid
    cases j with
    | zero =>
      simp only [List.get] at hid
      simp only [validatePlaybookLoop, hid, hseen, if_true, Nat.add_zero]
      exact List.mem_append_left _ (List.mem_append_left _ (by simp))
    | succ j2 =>
      have hj2 : j2 < rest.length := by simpa using hj
      have hid2 : jsPatternId (rest.get ⟨j2, hj2⟩) = some s := by simpa using hid
      have hidx : i0 + (j2 + 1) = (i0 + 1) + j2 := by omega
      rw [hidx]
      simp only [validatePlaybookLoop]
      cases hp : jsPatternId p with
      | none =>
        simp only [hp]
        exact List.mem_append_right _ (ih (i0 + 1) seen j2 hj2 s hseen hid2)
      | some s2 =>
        simp only [hp]
        refine List.mem_append_right _ ?_
        refine ih (i0 + 1) (s2 :: seen) j2 hj2 s ?_ hid2
        have : s ∈ seen := by simpa using hseen
        simp [this]

/-- Two entries with the same string id produce a duplicate-id error at the
later index. -/
theorem validatePlaybookLoop_dup (rxOk : String → Bool) :
    ∀ (ps : List JsValue) (i0 : Nat) (seen : List String) (i j : Nat)
      (hij : i < j) (hj : j < ps.length) (s : String),
      jsPatternId (ps.get ⟨i, Nat.lt_trans hij hj⟩) = some s →
      jsPatternId (ps.get ⟨j, hj⟩) = some s →
      ({ path := "patterns[" ++ toString (i0 + j) ++ "].id",
         message := "Duplicate pattern ID: " ++ s } : ValidationError) ∈
        validatePlaybookLoop rxOk i0 seen ps := by
  intro ps
  induction ps with
  | nil => intro i0 seen i j hij hj; simp at hj
  | cons p rest ih =>
    intro i0 seen i j hij hj s hi_id hj_id
    cases j with
    | zero => omega
    | succ j2 =>
      have hj2 : j2 < rest.length := by simpa using hj
      have hj_id2 : jsPatternId (rest.get ⟨j2, hj2⟩) = some s := by simpa using hj_id
      have hidx : i0 + (j2 + 1) = (i0 + 1) + j2 := by omega
      rw [hidx]
      simp only [validatePlaybookLoop]
      cases i with
      | zero =>
        simp only [List.get] at hi_id
        simp only [hi_id]
        exact List.mem_append_right _
          (validatePlaybookLoop_dup_of_seen rxOk rest (i0 + 1) (s :: seen) j2 hj2 s
            (by simp) hj_id2)
      | succ i2 =>
        have hij2 : i2 < j2 := by omega
        have hi_id2 : jsPatternId (rest.get ⟨i2, Nat.lt_trans hij2 hj2⟩) = some s := by
          simpa using hi_id
        cases hp : jsPatternId p with
        | none =>
          simp only [hp]
          exact List.mem_append_right _ (ih (i0 + 1) seen i2 j2 hij2 hj2 s hi_id2 hj_id2)
        | some s2 =>
          simp only [hp]
          exact List.mem_append_right _
            (ih (i0 + 1) (s2 :: seen) i2 j2 hij2 hj2 s hi_id2 hj_id2)

/-- Every error of every pattern's own validation survives into the loop's
output: validation accumulates across patterns instead of stopping. -/
theorem validatePlaybookLoop_accumulates (rxOk : String → Bool) :
    ∀ (ps : List JsValue) (i0 : Nat) (seen : List String) (k : Nat) (hk : k < ps.length),
      ∀ e ∈ validatePattern rxOk (ps.get ⟨k, hk⟩) (i0 + k),
        e ∈ validatePlaybookLoop rxOk i0 seen ps := by
  intro ps
  induction ps with
  | nil => intro i0 seen k hk; simp at hk
  | cons p rest ih =>
    intro i0 seen k hk e he
    simp only [validatePlaybookLoop]
    cases k with
    | zero =>
      refine List.mem_append_left _ (List.mem_append_right _ ?_)
      simpa using he
    | succ k2 =>
      have hk2 : k2 < rest.length := by simpa using hk
      have he2 : e ∈ validatePattern rxOk (rest.get ⟨k2, hk2⟩) ((i0 + 1) + k2) := by
        have hidx : i0 + (k2 + 1) = (i0 + 1) + k2 := by omega
        rw [← hidx]
        simpa using he
      refine List.mem_append_right _ ?_
      cases hp : jsPatternId p with
      | none => exact ih (i0 + 1) seen k2 hk2 e he2
      | some s2 => exact ih (i0 + 1) (s2 :: seen) k2 hk2 e he2

/-- On a well-shaped playbook object, `validatePlaybook` is the loop. -/
theorem validatePlaybook_obj (rxOk : String → Bool) (ps : List JsValue) :
    validatePlaybook rxOk (.obj [("patterns", .arr ps)]) =
      validatePlaybookLoop rxOk 0 [] ps := rfl

/-- Claim C6: on a playbook whose patterns array has two entries with the
same id and an entry with an invalid severity, `validatePlaybook` reports
both the duplicate-id error (at the later index) and the severity error;
more generally every per-field error of every pattern is accumulated in the
output rather than validation stopping at the first failure. -/
theorem claim_C6_validation_accumulates (rxOk : String → Bool) (ps : List JsValue)
    (i j k : Nat) (s : String) (hij : i < j) (hj : j < ps.length) (hk : k < ps.length)
    (hi_id : jsPatternId (ps.get ⟨i, Nat.lt_trans hij hj⟩) = some s)
    (hj_id : jsPatternId (ps.get ⟨j, hj⟩) = some s)
    (hobj : (!jsTypeofObject (ps.get ⟨k, hk⟩) || jsIsNull (ps.get ⟨k, hk⟩)) = false)
    (hsev : jsSeverityValid (ps.get ⟨k, hk⟩) = false) :
    ({ path := "patterns[" ++ toString j ++ "].id",
       message := "Duplicate pattern ID: " ++ s } : ValidationError) ∈
        validatePlaybook rxOk (.obj [("patterns", .arr ps)])
    ∧ ({ path := "patterns[" ++ toString k ++ "]" ++ ".severity",
         message := "severity must be one of: low, medium, high" } : ValidationError) ∈
        validatePlaybook rxOk (.obj [("patterns", .arr ps)])
    ∧ (∀ k2 (hk2 : k2 < ps.length),
        ∀ e ∈ validatePattern rxOk (ps.get ⟨k2, hk2⟩) k2,
          e ∈ validatePlaybook rxOk (.obj [("patterns", .arr ps)])) := by
  rw [validatePlaybook_obj]
  refine ⟨?_, ?_, ?_⟩
  · have := validatePlaybookLoop_dup rxOk ps 0 [] i j hij hj s hi_id hj_id
    simpa using this
  · have hmem := validatePattern_severity_error rxOk (ps.get ⟨k, hk⟩) k hobj hsev
    have := validatePlaybookLoop_accumulates rxOk ps 0 [] k hk _ (by simpa using hmem)
    simpa using this
  · intro k2 hk2 e he
    exact validatePlaybookLoop_accumulates rxOk ps 0 [] k2 hk2 e (by simpa using he)

/-- Witness for C6 on the repository test playbook: two patterns sharing id
`slsm-001`, the first with severity `"critical"`; both the duplicate-id
error and the severity error are reported. -/
theorem claim_C6_witness :
    ({ path := "patterns[" ++ toString 1 ++ "].id",
       message := "Duplicate pattern ID: " ++ "slsm-001" } : ValidationError) ∈
        validatePlaybook (fun _ => true) (.obj [("patterns", .arr [jsPatternA, jsPatternB])])
    ∧ ({ path := "patterns[" ++ toString 0 ++ "]" ++ ".severity",
         message := "severity must be one of: low, medium, high" } : ValidationError) ∈
        validatePlaybook (fun _ => true)
          (.obj [("patterns", .arr [jsPatternA, jsPatternB])]) := by
  have h := claim_C6_validation_accumulates (fun _ => true) [jsPatternA, jsPatternB]
    0 1 0 "slsm-001" (by omega) (by simp) (by simp)
    (by decide) (by decide) (by decide) (by decide)
  exact ⟨h.1, h.2.1⟩

/-- Claim C9: for a set of `N` documents, the IDF stored for a vocabulary
term with document frequency `df` is exactly `ln((N+1)/(df+1)) + 1`, and
that value is strictly positive (in fact ≥ 1) and bounded above by
`ln(N+1) + 1`, hence finite — including for terms occurring in zero or in
all documents. -/
theorem claim_C9_idf_formula_positive (documents : List (List String))
    (vocabulary : Finset String) (term : String) (hterm : term ∈ vocabulary)
    (_hne : documents ≠ []) :
    computeIdf documents vocabulary term =
      some (Real.log (((documents.length : ℝ) + 1) / ((docFreq documents term : ℝ) + 1)) + 1)
    ∧ ∀ v, computeIdf documents vocabulary term = some v →
        0 < v ∧ v ≤ Real.log ((documents.length : ℝ) + 1) + 1 := by
  have hdf : (docFreq documents term : ℝ) ≤ (documents.length : ℝ) := by
    exact_mod_cast List.length_filter_le _ documents
  have hdf0 : (0 : ℝ) < (docFreq documents term : ℝ) + 1 := by positivity
  have hN0 : (0 : ℝ) < (documents.length : ℝ) + 1 := by positivity
  have heq : computeIdf documents vocabulary term =
      some (Real.log (((documents.length : ℝ) + 1) / ((docFreq documents term : ℝ) + 1)) + 1) := by
    unfold computeIdf
    rw [if_pos hterm]
  refine ⟨heq, ?_⟩
  intro v hv
  rw [heq] at hv
  have hv2 := Option.some.inj hv
  subst hv2
  constructor
  · have hratio : 1 ≤ ((documents.length : ℝ) + 1) / ((docFreq documents term : ℝ) + 1) :=
      (one_le_div hdf0).2 (by linarith)
    have := Real.log_nonneg hratio
    linarith
  · have hratio2 : ((documents.length : ℝ) + 1) / ((docFreq documents term : ℝ) + 1) ≤
        (documents.length : ℝ) + 1 :=
      div_le_self (le_of_lt hN0) (by linarith)
    have hratio0 : (0 : ℝ) < ((documents.length : ℝ) + 1) / ((docFreq documents term : ℝ) + 1) :=
      div_pos hN0 hdf0
    have := Real.log_le_log hratio0 hratio2
    linarith

/-- Witness for C9 on two concrete documents: the IDF of `"timeout"`
(document frequency 1 out of 2) is positive. -/
theorem claim_C9_witness :
    computeIdf [["database", "timeout"], ["database"]] (insert "database" {"timeout"})
        "timeout" =
      some (Real.log ((([["database", "timeout"], ["database"]].length : ℝ) + 1) /
          ((docFreq [["database", "timeout"], ["database"]] "timeout" : ℝ) + 1)) + 1) ∧
      (0 : ℝ) < Real.log ((([["database", "timeout"], ["database"]].length : ℝ) + 1) /
          ((docFreq [["database", "timeout"], ["database"]] "timeout" : ℝ) + 1)) + 1 := by
  have h := claim_C9_idf_formula_positive [["database", "timeout"], ["database"]]
    (insert "database" {"timeout"}) "timeout" (by decide) (by decide)
  exact ⟨h.1, (h.2 _ h.1).1⟩

/-- Claim C10: a query term absent from the IDF table gets the default IDF
1 (not 0): its vector weight is its raw term frequency, so if the term
occurs in the query it is in the query vector's support with positive
weight (contributing to the magnitude); yet it lies in no stored pattern
vector's support, so the dot product with every stored vector is unchanged
when the term is removed — it can never contribute to the dot product. -/
theorem claim_C10_oov_default_idf (patterns : List Pattern) (queryTerms : List String)
    (t : String) (hoov : buildIdf patterns t = none) :
    effIdf (buildIdf patterns) t = 1
    ∧ (toVector (computeTf queryTerms) (buildIdf patterns)).weight t =
        ((computeTf queryTerms).weight t : ℝ)
    ∧ (t ∈ queryTerms →
        t ∈ (toVector (computeTf queryTerms) (buildIdf patterns)).support ∧
          0 < (toVector (computeTf queryTerms) (buildIdf patterns)).weight t)
    ∧ ∀ p ∈ patterns,
        t ∉ (storedVector patterns p).support
        ∧ dotProduct (toVector (computeTf queryTerms) (buildIdf patterns))
              (storedVector patterns p) =
            ∑ u ∈ (toVector (computeTf queryTerms) (buildIdf patterns)).support.erase t,
              (if u ∈ (storedVector patterns p).support then
                (toVector (computeTf queryTerms) (buildIdf patterns)).weight u *
                  (storedVector patterns p).weight u
              else 0) := by
  have heff : effIdf (buildIdf patterns) t = 1 := by
    unfold effIdf
    rw [hoov]
  have hw : (toVector (computeTf queryTerms) (buildIdf patterns)).weight t =
      ((computeTf queryTerms).weight t : ℝ) := by
    show ((computeTf queryTerms).weight t : ℝ) * effIdf (buildIdf patterns) t = _
    rw [heff, mul_one]
  have hvocab : t ∉ buildVocabulary patterns := by
    intro hmem
    have hne : buildIdf patterns t ≠ none := by
      unfold buildIdf computeIdf
      rw [if_pos hmem]
      simp
    exact hne hoov
  refine ⟨heff, hw, ?_, ?_⟩
  · intro ht
    have hlen : 0 < queryTerms.length := List.length_pos.2 (List.ne_nil_of_mem ht)
    have hcount : 0 < queryTerms.count t := List.count_pos_iff.2 ht
    constructor
    · exact List.mem_toFinset.2 ht
    · rw [hw]
      have htf : (0 : ℚ) < (computeTf queryTerms).weight t := by
        show (0 : ℚ) < (queryTerms.count t : ℚ) / (queryTerms.length : ℚ)
        apply div_pos <;> exact_mod_cast (by assumption)
      exact_mod_cast htf
  · intro p hp
    have hsup : t ∉ (storedVector patterns p).support := by
      intro hmem
      have ht2 : t ∈ patternDoc p := List.mem_toFinset.1 hmem
      exact hvocab (List.mem_toFinset.2 (List.mem_flatMap.2 ⟨p, hp, ht2⟩))
    refine ⟨hsup, ?_⟩
    unfold dotProduct
    exact (Finset.sum_erase _ (by rw [if_neg hsup])).symm

/-- Witness for C10: the out-of-vocabulary query term `"zzz"` gets a
positive weight in the query vector but is absent from the sample pattern's
stored vector. -/
theorem claim_C10_witness :
    0 < (toVector (computeTf ["zzz", "database"]) (buildIdf [samplePattern])).weight "zzz"
    ∧ "zzz" ∉ (storedVector [samplePattern] samplePattern).support := by
  have hoov : buildIdf [samplePattern] "zzz" = none := by
    unfold buildIdf computeIdf
    rw [if_neg (by decide)]
  have h := claim_C10_oov_default_idf [samplePattern] ["zzz", "database"] "zzz" hoov
  exact ⟨(h.2.2.1 (by decide)).2, (h.2.2.2 samplePattern (by decide)).1⟩

/-- Every IDF value `computeIdf` stores is strictly positive (in fact at
least 1, by the smoothing). -/
theorem computeIdf_some_pos {documents : List (List String)} {vocabulary : Finset String}
    {term : String} {v : ℝ} (h : computeIdf documents vocabulary term = some v) :
    0 < v := by
  unfold computeIdf at h
  split at h
  · have hv := Option.some.inj h
    subst hv
    have hdf : (docFreq documents term : ℝ) ≤ (documents.length : ℝ) := by
      exact_mod_cast List.length_filter_le _ documents
    have hratio : 1 ≤ ((documents.length : ℝ) + 1) / ((docFreq documents term : ℝ) + 1) :=
      (one_le_div (by positivity)).2 (by linarith)
    have := Real.log_nonneg hratio
    linarith
  · exact absurd h (by simp)

/-- The effective IDF `idf.get(term) || 1` is positive whenever all stored
IDF values are. -/
theorem effIdf_pos (idf : String → Option ℝ) (h : ∀ s v, idf s = some v → 0 < v)
    (t : String) : 0 < effIdf idf t := by
  unfold effIdf
  cases hidf : idf t with
  | none => exact one_pos
  | some v =>
    show 0 < if v = 0 then (1 : ℝ) else v
    by_cases hv : v = 0
    · rw [if_pos hv]; exact one_pos
    · rw [if_neg hv]; exact h t v hidf

/-- Term frequencies are nonnegative. -/
theorem computeTf_weight_nonneg (terms : List String) (t : String) :
    0 ≤ (computeTf terms).weight t := by
  show (0 : ℚ) ≤ (terms.count t : ℚ) / (terms.length : ℚ)
  positivity

/-- A term occurring in the document has positive term frequency. -/
theorem computeTf_weight_pos (terms : List String) (t : String) (ht : t ∈ terms) :
    0 < (computeTf terms).weight t := by
  show (0 : ℚ) < (terms.count t : ℚ) / (terms.length : ℚ)
  have hcount : 0 < terms.count t := List.count_pos_iff.2 ht
  have hlen : 0 < terms.length := List.length_pos.2 (List.ne_nil_of_mem ht)
  apply div_pos <;> exact_mod_cast (by assumption)

/-- `toVector` builds well-formed vectors whenever the effective IDF is
nonnegative. -/
theorem toVector_wellFormed (terms : List String) (idf : String → Option ℝ)
    (hidf : ∀ t, 0 ≤ effIdf idf t) :
    WellFormedVec (toVector (computeTf terms) idf) := by
  constructor
  · intro t _
    show 0 ≤ ((computeTf terms).weight t : ℝ) * effIdf idf t
    have := computeTf_weight_nonneg terms t
    have h2 : (0 : ℝ) ≤ ((computeTf terms).weight t : ℝ) := by exact_mod_cast this
    exact mul_nonneg h2 (hidf t)
  · rfl

/-- The dot-product loop is symmetric: iterating either vector's terms and
probing the other yields the same sum. -/
theorem dotProduct_comm (v1 v2 : TfIdfVector) : dotProduct v1 v2 = dotProduct v2 v1 := by
  unfold dotProduct
  rw [Finset.sum_ite_mem, Finset.sum_ite_mem, Finset.inter_comm]
  exact Finset.sum_congr rfl (fun t _ => mul_comm _ _)

/-- Claim C2: `cosineSimilarity` is symmetric; it returns 0 whenever either
magnitude is 0 (no division by zero); it is bounded in `[0, 1]` on
well-formed vectors (nonnegative weights, cached Euclidean magnitude —
the invariant of all vectors the module builds or loads); and a pattern
document with at least one recognized term has similarity exactly 1 with
itself. -/
theorem claim_C2_cosine_properties :
    (∀ v1 v2 : TfIdfVector, cosineSimilarity v1 v2 = cosineSimilarity v2 v1)
    ∧ (∀ v1 v2 : TfIdfVector, v1.magnitude = 0 ∨ v2.magnitude = 0 →
        cosineSimilarity v1 v2 = 0)
    ∧ (∀ v1 v2 : TfIdfVector, WellFormedVec v1 → WellFormedVec v2 →
        0 ≤ cosineSimilarity v1 v2 ∧ cosineSimilarity v1 v2 ≤ 1)
    ∧ (∀ (patterns : List Pattern) (p : Pattern), p ∈ patterns → patternDoc p ≠ [] →
        cosineSimilarity (storedVector patterns p) (storedVector patterns p) = 1) := by
  refine ⟨?_, ?_, ?_, ?_⟩
  · intro v1 v2
    unfold cosineSimilarity
    by_cases h : v1.magnitude = 0 ∨ v2.magnitude = 0
    · rw [if_pos h, if_pos h.symm]
    · rw [if_neg h, if_neg (fun h2 => h h2.symm), dotProduct_comm, mul_comm]
  · intro v1 v2 h
    unfold cosineSimilarity
    rw [if_pos h]
  · intro v1 v2 hw1 hw2
    obtain ⟨hpos1, hmag1⟩ := hw1
    obtain ⟨hpos2, hmag2⟩ := hw2
    by_cases h : v1.magnitude = 0 ∨ v2.magnitude = 0
    · unfold cosineSimilarity
      rw [if_pos h]
      exact ⟨le_refl 0, zero_le_one⟩
    · push_neg at h
      have hm1nn : 0 ≤ v1.magnitude := hmag1 ▸ Real.sqrt_nonneg _
      have hm2nn : 0 ≤ v2.magnitude := hmag2 ▸ Real.sqrt_nonneg _
      have hm1 : 0 < v1.magnitude := lt_of_le_of_ne hm1nn (Ne.symm h.1)
      have hm2 : 0 < v2.magnitude := lt_of_le_of_ne hm2nn (Ne.symm h.2)
      have hdotnn : 0 ≤ dotProduct v1 v2 := by
        unfold dotProduct
        apply Finset.sum_nonneg
        intro t ht
        by_cases ht2 : t ∈ v2.support
        · rw [if_pos ht2]
          exact mul_nonneg (hpos1 t ht) (hpos2 t ht2)
        · rw [if_neg ht2]
      have hcos : cosineSimilarity v1 v2 =
          dotProduct v1 v2 / (v1.magnitude * v2.magnitude) := by
        unfold cosineSimilarity
        rw [if_neg (by push_neg; exact h)]
      constructor
      · rw [hcos]
        exact div_nonneg hdotnn (mul_nonneg hm1nn hm2nn)
      · rw [hcos]
        rw [div_le_one (mul_pos hm1 hm2)]
        have hdot_inter : dotProduct v1 v2 =
            ∑ t ∈ v1.support ∩ v2.support, v1.weight t * v2.weight t := by
          unfold dotProduct
          exact Finset.sum_ite_mem _ _ _
        have hcs : ∑ t ∈ v1.support ∩ v2.support, v1.weight t * v2.weight t ≤
            Real.sqrt (∑ t ∈ v1.support ∩ v2.support, v1.weight t ^ 2) *
              Real.sqrt (∑ t ∈ v1.support ∩ v2.support, v2.weight t ^ 2) :=
          Real.sum_mul_le_sqrt_mul_sqrt _ _ _
        have hsub1 : ∑ t ∈ v1.support ∩ v2.support, v1.weight t ^ 2 ≤
            ∑ t ∈ v1.support, v1.weight t * v1.weight t := by
          simp only [← pow_two]
          exact Finset.sum_le_sum_of_subset_of_nonneg Finset.inter_subset_left
            (fun t _ _ => sq_nonneg _)
        have hsub2 : ∑ t ∈ v1.support ∩ v2.support, v2.weight t ^ 2 ≤
            ∑ t ∈ v2.support, v2.weight t * v2.weight t := by
          simp only [← pow_two]
          exact Finset.sum_le_sum_of_subset_of_nonneg Finset.inter_subset_right
            (fun t _ _ => sq_nonneg _)
        calc dotProduct v1 v2
            ≤ Real.sqrt (∑ t ∈ v1.support ∩ v2.support, v1.weight t ^ 2) *
              Real.sqrt (∑ t ∈ v1.support ∩ v2.support, v2.weight t ^ 2) := by
              rw [hdot_inter]; exact hcs
          _ ≤ v1.magnitude * v2.magnitude := by
              rw [hmag1, hmag2]
              exact mul_le_mul (Real.sqrt_le_sqrt hsub1) (Real.sqrt_le_sqrt hsub2)
                (Real.sqrt_nonneg _) (Real.sqrt_nonneg _)
  · intro patterns p _hp hdoc
    obtain ⟨t0, ht0⟩ := List.exists_mem_of_ne_nil _ hdoc
    have hidfpos : ∀ t, 0 < effIdf (buildIdf patterns) t :=
      effIdf_pos _ (fun s v hv => computeIdf_some_pos hv)
    set terms := patternDoc p with hterms
    set w : String → ℝ :=
      fun t => ((computeTf terms).weight t : ℝ) * effIdf (buildIdf patterns) t with hwdef
    have hS : (0 : ℝ) < ∑ t ∈ (computeTf terms).support, w t * w t := by
      apply Finset.sum_pos'
      · intro t _
        exact mul_self_nonneg _
      · refine ⟨t0, List.mem_toFinset.2 ht0, ?_⟩
        have hw0 : 0 < w t0 := by
          apply mul_pos _ (hidfpos t0)
          exact_mod_cast computeTf_weight_pos terms t0 ht0
        exact mul_pos hw0 hw0
    have hmag : (storedVector patterns p).magnitude =
        Real.sqrt (∑ t ∈ (computeTf terms).support, w t * w t) := rfl
    have hmagpos : 0 < (storedVector patterns p).magnitude := by
      rw [hmag]
      exact Real.sqrt_pos.2 hS
    have hdot : dotProduct (storedVector patterns p) (storedVector patterns p) =
        ∑ t ∈ (computeTf terms).support, w t * w t := by
      unfold dotProduct
      exact Finset.sum_congr rfl (fun t ht => if_pos ht)
    unfold cosineSimilarity
    rw [if_neg (by push_neg; exact ⟨ne_of_gt hmagpos, ne_of_gt hmagpos⟩)]
    rw [hdot, hmag, Real.mul_self_sqrt hS.le]
    exact div_self (ne_of_gt hS)

/-- Witness for C2: the sample pattern's stored vector has self-similarity
exactly 1, and its cosine similarity with itself is within bounds. -/
theorem claim_C2_witness :
    cosineSimilarity (storedVector [samplePattern] samplePattern)
        (storedVector [samplePattern] samplePattern) = 1
    ∧ 0 ≤ cosineSimilarity (storedVector [samplePattern] samplePattern)
        (storedVector [samplePattern] samplePattern) := by
  refine ⟨claim_C2_cosine_properties.2.2.2 [samplePattern] samplePattern
    (by decide) (by decide), ?_⟩
  have hwf : WellFormedVec (storedVector [samplePattern] samplePattern) :=
    toVector_wellFormed _ _
      (fun t => (effIdf_pos _ (fun s v hv => computeIdf_some_pos hv) t).le)
  exact (claim_C2_cosine_properties.2.2.1 _ _ hwf hwf).1


/-! #### Stage identity lemmas -/

/-- `toLowerCase` fixes characters that are not ASCII uppercase. -/
theorem toLower_eq_self_of_not_upper {c : Char} (h : ¬(65 ≤ c.toNat ∧ c.toNat ≤ 90)) :
    c.toLower = c := by
  unfold Char.toLower
  rw [if_neg h]

/-- `toLowerCase` never produces an ASCII uppercase character. -/
theorem toLower_not_upper (c : Char) :
    ¬(65 ≤ c.toLower.toNat ∧ c.toLower.toNat ≤ 90) := by
  unfold Char.toLower
  by_cases h : 65 ≤ c.toNat ∧ c.toNat ≤ 90
  · rw [if_pos h]
    have hv : (Char.ofNat (c.toNat + 32)).toNat = c.toNat + 32 := by
      unfold Char.ofNat
      rw [dif_pos (Or.inl (by omega))]
      rfl
    rw [hv]
    omega
  · rw [if_neg h]
    exact h

/-- Lower-casing is the identity on strings without uppercase letters. -/
theorem map_toLower_id {y : List Char} (h : NoUpper y) : y.map Char.toLower = y := by
  induction y with
  | nil => rfl
  | cons c rest ih =>
    rw [List.map_cons, toLower_eq_self_of_not_upper (h c (List.mem_cons_self c rest)),
      ih (fun d hd => h d (List.mem_cons_of_mem c hd))]

/-- A suffix of the tail is a suffix of the list. -/
theorem suffix_of_suffix_tail {s rest : List Char} (c : Char) (hs : s <:+ rest) :
    s <:+ c :: rest :=
  hs.trans (List.suffix_cons c rest)

/-- The IP scanner is the identity when no suffix matches. -/
theorem ipScanF_id : ∀ (n : Nat) (y : List Char), NoIp y → ipScanF n y = y := by
  intro n
  induction n with
  | zero => intro y _; cases y <;> rfl
  | succ n ih =>
    intro y h
    cases y with
    | nil => rfl
    | cons c rest =>
      have hm : ipMatchLen (c :: rest) = none := h _ (List.suffix_refl _)
      show (match ipMatchLen (c :: rest) with
        | some k => "<ip>".toList ++ ipScanF n (rest.drop (k - 1))
        | none => c :: ipScanF n rest) = c :: rest
      rw [hm]
      rw [ih rest (fun s hs => h s (suffix_of_suffix_tail c hs))]

/-- The port scanner is the identity when no `':'` is followed by a digit. -/
theorem portScanF_id : ∀ (n : Nat) (y : List Char), NoCD y → portScanF n y = y := by
  intro n
  induction n with
  | zero => intro y _; cases y <;> rfl
  | succ n ih =>
    intro y h
    cases y with
    | nil => rfl
    | cons c rest =>
      have hcond : (c = ':' &&
          (match rest.head? with | some d => d.isDigit | none => false)) = false := by
        cases rest with
        | nil => simp
        | cons d rest2 =>
          by_cases hc : c = ':'
          · subst hc
            simp [h d rest2 (List.suffix_refl _)]
          · simp [hc]
      show (if (c = ':' &&
          (match rest.head? with | some d => d.isDigit | none => false)) = true then
          ":<port>".toList ++ portScanF n (rest.dropWhile Char.isDigit)
        else c :: portScanF n rest) = c :: rest
      rw [hcond]
      simp only [Bool.false_eq_true, if_false]
      rw [ih rest (fun d t hs => h d t (suffix_of_suffix_tail c hs))]

/-- The UUID scanner is the identity when no `'/'` heads a 36-character
class run. -/
theorem uuidScanF_id : ∀ (n : Nat) (y : List Char), NoUuid y → uuidScanF n y = y := by
  intro n
  induction n with
  | zero => intro y _; cases y <;> rfl
  | succ n ih =>
    intro y h
    cases y with
    | nil => rfl
    | cons c rest =>
      have hcond : (c = '/' && 36 ≤ rest.length && (rest.take 36).all isUuidChar) = false := by
        by_cases hc : c = '/'
        · subst hc
          have := h rest (List.suffix_refl _)
          simp only [Bool.and_assoc] at this ⊢
          simpa using this
        · simp [hc]
      show (if (c = '/' && 36 ≤ rest.length && (rest.take 36).all isUuidChar) = true then
          "/<uuid>".toList ++ uuidScanF n (rest.drop 36)
        else c :: uuidScanF n rest) = c :: rest
      rw [hcond]
      simp only [Bool.false_eq_true, if_false]
      rw [ih rest (fun t hs => h t (suffix_of_suffix_tail c hs))]

/-- The whitespace scanner is the identity on collapsed whitespace. -/
theorem wsScanF_id : ∀ (n : Nat) (y : List Char), WsOk y → wsScanF n y = y := by
  intro n
  induction n with
  | zero => intro y _; cases y <;> rfl
  | succ n ih =>
    intro y h
    cases y with
    | nil => rfl
    | cons c rest =>
      have hrec : wsScanF n rest = rest := by
        refine ih rest ⟨fun d hd hsp => h.1 d (List.mem_cons_of_mem c hd) hsp, ?_⟩
        intro d t hs
        exact h.2 d t (suffix_of_suffix_tail c hs)
      by_cases hc : isJsSpace c = true
      · have hsp : c = ' ' := h.1 c (List.mem_cons_self c rest) hc
        subst hsp
        have hdrop : rest.dropWhile isJsSpace = rest := by
          cases rest with
          | nil => rfl
          | cons d t =>
            have hd : isJsSpace d = false := h.2 d t (List.suffix_refl _)
            simp [List.dropWhile_cons, hd]
        show (if isJsSpace ' ' = true then ' ' :: wsScanF n (rest.dropWhile isJsSpace)
          else ' ' :: wsScanF n rest) = ' ' :: rest
        rw [if_pos (by simp [isJsSpace]), hdrop, hrec]
      · show (if isJsSpace c = true then ' ' :: wsScanF n (rest.dropWhile isJsSpace)
          else c :: wsScanF n rest) = c :: rest
        rw [if_neg (by simp [hc]), hrec]

/-- The head of a dropWhile result fails the predicate. -/
theorem head_dropWhile_false {p : Char → Bool} {l : List Char} {d : Char} {t : List Char}
    (hd : l.dropWhile p = d :: t) : p d = false := by
  have hne : l.dropWhile p ≠ [] := by rw [hd]; simp
  have h2 := List.head_dropWhile_not p l hne
  simp only [hd, List.head_cons] at h2
  simpa using h2

/-- Dropping a prefix predicate twice is the same as dropping it once. -/
theorem dropWhile_idem (p : Char → Bool) (l : List Char) :
    (l.dropWhile p).dropWhile p = l.dropWhile p := by
  cases hd : l.dropWhile p with
  | nil => rfl
  | cons d t => simp [List.dropWhile_cons, head_dropWhile_false hd]

/-- A nonempty suffix has the same last element. -/
theorem getLast?_of_suffix {s u : List Char} (h : s <:+ u) (hne : s ≠ []) :
    s.getLast? = u.getLast? := by
  obtain ⟨t, rfl⟩ := h
  rw [List.getLast?_append_of_ne_nil t hne]

/-- A trimmed string has no leading whitespace. -/
theorem dropWhile_jsTrim (y : List Char) :
    (jsTrim y).dropWhile isJsSpace = jsTrim y := by
  unfold jsTrim
  cases hw : ((y.dropWhile isJsSpace).reverse.dropWhile isJsSpace) with
  | nil => simp
  | cons d t =>
    cases hh : (d :: t).reverse with
    | nil => simp at hh
    | cons e t2 =>
      have h1 : (d :: t).getLast? = some e := by
        rw [← List.head?_reverse, hh]
        rfl
      have h2 : (d :: t).getLast? = ((y.dropWhile isJsSpace).reverse).getLast? :=
        getLast?_of_suffix (hw ▸ List.dropWhile_suffix isJsSpace) (by simp)
      have h3 : ((y.dropWhile isJsSpace).reverse).getLast? =
          (y.dropWhile isJsSpace).head? := List.getLast?_reverse _
      have he : isJsSpace e = false := by
        cases hv : y.dropWhile isJsSpace with
        | nil =>
          rw [hv] at h2
          simp at h2
        | cons f t3 =>
          have hf : isJsSpace f = false := head_dropWhile_false hv
          have h4 : some e = some f := by
            rw [← h1, h2, h3, hv]
            rfl
          rw [Option.some.injEq] at h4
          rw [h4]
          exact hf
      rw [List.dropWhile_cons]
      simp [he]

/-- `trim` is idempotent. -/
theorem jsTrim_jsTrim (y : List Char) : jsTrim (jsTrim y) = jsTrim y := by
  conv_lhs => rw [jsTrim]
  rw [dropWhile_jsTrim]
  show ((jsTrim y).reverse.dropWhile isJsSpace).reverse = jsTrim y
  have h2 : (jsTrim y).reverse = (y.dropWhile isJsSpace).reverse.dropWhile isJsSpace := by
    unfold jsTrim
    rw [List.reverse_reverse]
  rw [h2, dropWhile_idem, ← h2, List.reverse_reverse]


/-- `prevAt` composes over list append. -/
theorem prevAt_append (prev : Option Char) (u a : List Char) :
    prevAt prev (u ++ a) = prevAt (prevAt prev u) a := by
  cases ha : a.getLast? with
  | none =>
    have ha2 : a = [] := by
      cases a with
      | nil => rfl
      | cons x a2 => simp at ha
    subst ha2
    simp [prevAt]
  | some g =>
    have hne : a ≠ [] := by
      intro h2
      subst h2
      simp at ha
    unfold prevAt
    rw [List.getLast?_append_of_ne_nil u hne, ha]

/-- `prevAt` after consuming one character. -/
theorem prevAt_cons (prev : Option Char) (c : Char) (a : List Char) :
    prevAt prev (c :: a) = prevAt (some c) a := by
  have := prevAt_append prev [c] a
  simpa [prevAt] using this

/-- A nonempty list's `prevAt` is its last element. -/
theorem prevAt_ne_nil (prev : Option Char) (u : List Char) (c0 : Char) (h : u ≠ []) :
    prevAt prev u = some (u.getLastD c0) := by
  unfold prevAt
  cases hg : u.getLast? with
  | none =>
    exact absurd (List.getLast?_eq_none_iff.1 hg) h
  | some g =>
    rw [List.getLastD_eq_getLast?, hg]
    rfl

/-- The number scanner is the identity when no position matches
`/\b\d+\b/`. -/
theorem numScanF_id : ∀ (n : Nat) (prev : Option Char) (y : List Char),
    NumOk prev y → numScanF n prev y = y := by
  intro n
  induction n with
  | zero => intro prev y _; cases y <;> rfl
  | succ n ih =>
    intro prev y h
    cases y with
    | nil => rfl
    | cons c rest =>
      have hcond : (c.isDigit && prevBoundary prev &&
          afterBoundary (rest.dropWhile Char.isDigit)) = false := by
        have h2 := h [] c rest rfl
        simpa [prevAt] using h2
      have hrest : NumOk (some c) rest := by
        intro a c2 t hdec
        have h2 := h (c :: a) c2 t (by rw [hdec, List.cons_append])
        rw [prevAt_cons] at h2
        exact h2
      show (if (c.isDigit && prevBoundary prev) = true then
          if afterBoundary (rest.dropWhile Char.isDigit) = true then
            "<n>".toList ++ numScanF n
              (some ((c :: rest.takeWhile Char.isDigit).getLastD c))
              (rest.dropWhile Char.isDigit)
          else (c :: rest.takeWhile Char.isDigit) ++ numScanF n
              (some ((c :: rest.takeWhile Char.isDigit).getLastD c))
              (rest.dropWhile Char.isDigit)
        else c :: numScanF n (some c) rest) = c :: rest
      by_cases h1 : (c.isDigit && prevBoundary prev) = true
      · have h2 : afterBoundary (rest.dropWhile Char.isDigit) = false := by
          rcases Bool.eq_false_or_eq_true (afterBoundary (rest.dropWhile Char.isDigit)) with
            h3 | h3
          · rw [h1, h3] at hcond
            simp at hcond
          · exact h3
        rw [if_pos h1, if_neg (by rw [h2]; simp)]
        have hsplit : (c :: rest.takeWhile Char.isDigit) ++ rest.dropWhile Char.isDigit =
            c :: rest := by
          rw [List.cons_append, List.takeWhile_append_dropWhile]
        have hrec : numScanF n (some ((c :: rest.takeWhile Char.isDigit).getLastD c))
            (rest.dropWhile Char.isDigit) = rest.dropWhile Char.isDigit := by
          apply ih
          intro a c2 t hdec
          have h3 := h ((c :: rest.takeWhile Char.isDigit) ++ a) c2 t
            (by rw [List.append_assoc, ← hdec, hsplit])
          rw [prevAt_append, prevAt_ne_nil prev _ c (by simp)] at h3
          exact h3
        rw [hrec, hsplit]
      · rw [if_neg h1, ih (some c) rest hrest]


/-! #### Prefix agreement: a scanner's output coincides with its input up
to the first replacement, whose token then supplies a known character. -/

/-- Unfolding equation for `numScanF` at successor fuel on a cons. -/
theorem numScanF_succ (n : Nat) (prev : Option Char) (c : Char) (rest : List Char) :
    numScanF (n + 1) prev (c :: rest) =
      if c.isDigit && prevBoundary prev then
        if afterBoundary (rest.dropWhile Char.isDigit) then
          "<n>".toList ++ numScanF n
            (some ((c :: rest.takeWhile Char.isDigit).getLastD c))
            (rest.dropWhile Char.isDigit)
        else
          (c :: rest.takeWhile Char.isDigit) ++ numScanF n
            (some ((c :: rest.takeWhile Char.isDigit).getLastD c))
            (rest.dropWhile Char.isDigit)
      else c :: numScanF n (some c) rest := rfl

/-- Unfolding equation for `wsScanF` at successor fuel on a cons. -/
theorem wsScanF_succ (n : Nat) (c : Char) (rest : List Char) :
    wsScanF (n + 1) (c :: rest) =
      if isJsSpace c then ' ' :: wsScanF n (rest.dropWhile isJsSpace)
      else c :: wsScanF n rest := rfl

/-- Unfolding equation for `uuidScanF` at successor fuel on a cons. -/
theorem uuidScanF_succ (n : Nat) (c : Char) (rest : List Char) :
    uuidScanF (n + 1) (c :: rest) =
      if c = '/' && 36 ≤ rest.length && (rest.take 36).all isUuidChar then
        "/<uuid>".toList ++ uuidScanF n (rest.drop 36)
      else c :: uuidScanF n rest := rfl

/-- Unfolding equation for `portScanF` at successor fuel on a cons. -/
theorem portScanF_succ (n : Nat) (c : Char) (rest : List Char) :
    portScanF (n + 1) (c :: rest) =
      if c = ':' && (match rest.head? with | some d => d.isDigit | none => false) then
        ":<port>".toList ++ portScanF n (rest.dropWhile Char.isDigit)
      else c :: portScanF n rest := rfl

/-- Unfolding equation for `ipScanF` at successor fuel on a cons. -/
theorem ipScanF_succ (n : Nat) (c : Char) (rest : List Char) :
    ipScanF (n + 1) (c :: rest) =
      match ipMatchLen (c :: rest) with
      | some k => "<ip>".toList ++ ipScanF n (rest.drop (k - 1))
      | none => c :: ipScanF n rest := rfl

/-- Lift a prefix-agreement certificate over one copied character. -/
theorem prefixAgree_cons {c : Char} {out y : List Char} {δ : Char}
    (ih : ∃ j, out.take j = y.take j ∧
      ((out.drop j = [] ∧ y.drop j = []) ∨ (out.drop j).head? = some δ)) :
    ∃ j, (c :: out).take j = (c :: y).take j ∧
      (((c :: out).drop j = [] ∧ (c :: y).drop j = []) ∨
        ((c :: out).drop j).head? = some δ) := by
  obtain ⟨j, h1, h2⟩ := ih
  exact ⟨j + 1, by simpa using h1, by simpa using h2⟩

/-- Lift a prefix-agreement certificate over a copied run. -/
theorem prefixAgree_append (u : List Char) {out y : List Char} {δ : Char}
    (ih : ∃ j, out.take j = y.take j ∧
      ((out.drop j = [] ∧ y.drop j = []) ∨ (out.drop j).head? = some δ)) :
    ∃ j, (u ++ out).take j = (u ++ y).take j ∧
      (((u ++ out).drop j = [] ∧ (u ++ y).drop j = []) ∨
        ((u ++ out).drop j).head? = some δ) := by
  obtain ⟨j, h1, h2⟩ := ih
  refine ⟨u.length + j, ?_, ?_⟩
  · rw [List.take_append, List.take_append, h1]
  · rw [List.drop_append, List.drop_append]
    rcases h2 with ⟨ha, hb⟩ | h
    · exact Or.inl ⟨ha, hb⟩
    · exact Or.inr h

/-- The reflexive certificate (output equals input). -/
theorem prefixAgree_refl (y : List Char) (δ : Char) :
    ∃ j, y.take j = y.take j ∧
      ((y.drop j = [] ∧ y.drop j = []) ∨ (y.drop j).head? = some δ) :=
  ⟨y.length, rfl, Or.inl ⟨by simp, by simp⟩⟩

/-- Prefix agreement for the number scanner: output and input agree up to
a position where the output holds `'<'`. -/
theorem numScanF_prefixAgree : ∀ (n : Nat) (prev : Option Char) (y : List Char),
    ∃ j, (numScanF n prev y).take j = y.take j ∧
      (((numScanF n prev y).drop j = [] ∧ y.drop j = []) ∨
        ((numScanF n prev y).drop j).head? = some '<') := by
  intro n
  induction n with
  | zero =>
    intro prev y
    cases y with
    | nil => exact ⟨0, rfl, Or.inl ⟨rfl, rfl⟩⟩
    | cons c rest => exact prefixAgree_refl (c :: rest) _
  | succ n ih =>
    intro prev y
    cases y with
    | nil => exact ⟨0, rfl, Or.inl ⟨rfl, rfl⟩⟩
    | cons c rest =>
      rw [numScanF_succ]
      by_cases h1 : (c.isDigit && prevBoundary prev) = true
      · by_cases h2 : afterBoundary (rest.dropWhile Char.isDigit) = true
        · rw [if_pos h1, if_pos h2]
          exact ⟨0, rfl, Or.inr rfl⟩
        · rw [if_pos h1, if_neg h2]
          have hstep := prefixAgree_append (c :: rest.takeWhile Char.isDigit)
            (ih (some ((c :: rest.takeWhile Char.isDigit).getLastD c))
              (rest.dropWhile Char.isDigit))
          have hsplit : (c :: rest.takeWhile Char.isDigit) ++ rest.dropWhile Char.isDigit =
              c :: rest := by
            rw [List.cons_append, List.takeWhile_append_dropWhile]
          rw [hsplit] at hstep
          exact hstep
      · rw [if_neg h1]
        exact prefixAgree_cons (ih (some c) rest)

/-- Prefix agreement for the whitespace scanner (divergence char `' '`). -/
theorem wsScanF_prefixAgree : ∀ (n : Nat) (y : List Char),
    ∃ j, (wsScanF n y).take j = y.take j ∧
      (((wsScanF n y).drop j = [] ∧ y.drop j = []) ∨
        ((wsScanF n y).drop j).head? = some ' ') := by
  intro n
  induction n with
  | zero =>
    intro y
    cases y with
    | nil => exact ⟨0, rfl, Or.inl ⟨rfl, rfl⟩⟩
    | cons c rest => exact prefixAgree_refl (c :: rest) _
  | succ n ih =>
    intro y
    cases y with
    | nil => exact ⟨0, rfl, Or.inl ⟨rfl, rfl⟩⟩
    | cons c rest =>
      rw [wsScanF_succ]
      by_cases h1 : isJsSpace c = true
      · rw [if_pos h1]
        exact ⟨0, rfl, Or.inr rfl⟩
      · rw [if_neg h1]
        exact prefixAgree_cons (ih rest)

/-- Prefix agreement for the UUID scanner (divergence char `'<'`). -/
theorem uuidScanF_prefixAgree : ∀ (n : Nat) (y : List Char),
    ∃ j, (uuidScanF n y).take j = y.take j ∧
      (((uuidScanF n y).drop j = [] ∧ y.drop j = []) ∨
        ((uuidScanF n y).drop j).head? = some '<') := by
  intro n
  induction n with
  | zero =>
    intro y
    cases y with
    | nil => exact ⟨0, rfl, Or.inl ⟨rfl, rfl⟩⟩
    | cons c rest => exact prefixAgree_refl (c :: rest) _
  | succ n ih =>
    intro y
    cases y with
    | nil => exact ⟨0, rfl, Or.inl ⟨rfl, rfl⟩⟩
    | cons c rest =>
      rw [uuidScanF_succ]
      by_cases h1 : (c = '/' && 36 ≤ rest.length && (rest.take 36).all isUuidChar) = true
      · rw [if_pos h1]
        have hc : c = '/' := by
          simp only [Bool.and_assoc, Bool.and_eq_true, decide_eq_true_eq] at h1
          exact h1.1
        subst hc
        exact ⟨1, rfl, Or.inr rfl⟩
      · rw [if_neg h1]
        exact prefixAgree_cons (ih rest)


/-! #### Basic closure properties of the fixed-point conditions. -/

/-- `NoCD` holds of any suffix. -/
theorem noCD_suffix {y s : List Char} (h : NoCD y) (hs : s <:+ y) : NoCD s := by
  intro d t hsuf
  exact h d t (hsuf.trans hs)

/-- `NoUuid` holds of any suffix. -/
theorem noUuid_suffix {y s : List Char} (h : NoUuid y) (hs : s <:+ y) : NoUuid s := by
  intro t hsuf
  exact h t (hsuf.trans hs)

/-- Adding a head preserves `NoCD` when the new pair is harmless. -/
theorem noCD_cons {c : Char} {out : List Char}
    (hhead : ∀ d t, c = ':' → out = d :: t → d.isDigit = false)
    (h : NoCD out) : NoCD (c :: out) := by
  intro d t hsuf
  rcases List.suffix_cons_iff.mp hsuf with heq | hsuf2
  · injection heq with h1 h2
    exact hhead d t h1.symm h2.symm
  · exact h d t hsuf2

/-- Prepending colon-free characters preserves `NoCD`. -/
theorem noCD_append {u out : List Char}
    (hu : ∀ c ∈ u, c ≠ ':') (h : NoCD out) : NoCD (u ++ out) := by
  induction u with
  | nil => exact h
  | cons c u ih =>
    refine noCD_cons (fun d t hc _ => absurd hc (hu c (List.mem_cons_self c u))) ?_
    exact ih (fun x hx => hu x (List.mem_cons_of_mem c hx))

/-- Adding a head preserves `NoUuid` when the new window is harmless. -/
theorem noUuid_cons {c : Char} {out : List Char}
    (hhead : c = '/' → (36 ≤ out.length && (out.take 36).all isUuidChar) = false)
    (h : NoUuid out) : NoUuid (c :: out) := by
  intro t hsuf
  rcases List.suffix_cons_iff.mp hsuf with heq | hsuf2
  · injection heq with h1 h2
    subst h2
    exact hhead h1.symm
  · exact h t hsuf2

/-- Prepending slash-free characters preserves `NoUuid`. -/
theorem noUuid_append {u out : List Char}
    (hu : ∀ c ∈ u, c ≠ '/') (h : NoUuid out) : NoUuid (u ++ out) := by
  induction u with
  | nil => exact h
  | cons c u ih =>
    refine noUuid_cons (fun hc => absurd hc (hu c (List.mem_cons_self c u))) ?_
    exact ih (fun x hx => hu x (List.mem_cons_of_mem c hx))

/-- A window starting with `'<'` never matches the UUID character class. -/
theorem uuid_window_lt (l : List Char) :
    (36 ≤ ('<' :: l).length && (('<' :: l).take 36).all isUuidChar) = false := by
  have h1 : ('<' :: l).take 36 = '<' :: l.take 35 := rfl
  rw [h1]
  simp [isUuidChar]

/-- `NumOk` holds of the empty list. -/
theorem numOk_nil (prev : Option Char) : NumOk prev [] := by
  intro a c t h
  exact absurd h (by simp)

/-- Splitting off the head of a `NumOk` list. -/
theorem numOk_cons_elim {prev : Option Char} {c : Char} {y : List Char}
    (h : NumOk prev (c :: y)) :
    (c.isDigit && prevBoundary prev && afterBoundary (y.dropWhile Char.isDigit)) = false ∧
      NumOk (some c) y := by
  constructor
  · have := h [] c y rfl
    simpa [prevAt] using this
  · intro a d t hsplit
    have := h (c :: a) d t (by rw [hsplit, List.cons_append])
    rwa [prevAt_cons] at this

/-- Rebuilding a `NumOk` list from its head. -/
theorem numOk_cons_intro {prev : Option Char} {c : Char} {y : List Char}
    (h0 : (c.isDigit && prevBoundary prev && afterBoundary (y.dropWhile Char.isDigit)) = false)
    (h : NumOk (some c) y) : NumOk prev (c :: y) := by
  intro a d t hsplit
  cases a with
  | nil =>
    simp only [List.nil_append, List.cons.injEq] at hsplit
    obtain ⟨h1, h2⟩ := hsplit
    subst h1; subst h2
    simpa [prevAt] using h0
  | cons a0 a1 =>
    simp only [List.cons_append, List.cons.injEq] at hsplit
    obtain ⟨h1, h2⟩ := hsplit
    subst h1
    rw [prevAt_cons]
    exact h a1 d t h2

/-- The boundary context passes only through `prevBoundary`. -/
theorem numOk_congr_prev {p1 p2 : Option Char} {y : List Char}
    (hb : prevBoundary p1 = prevBoundary p2) (h : NumOk p1 y) : NumOk p2 y := by
  intro a c t hsplit
  have h2 := h a c t hsplit
  cases ha : a.getLast? with
  | none =>
    have : prevAt p2 a = p2 := by unfold prevAt; rw [ha]
    rw [this, ← hb]
    have h3 : prevAt p1 a = p1 := by unfold prevAt; rw [ha]
    rwa [h3] at h2
  | some g =>
    have e1 : prevAt p1 a = some g := by unfold prevAt; rw [ha]
    have e2 : prevAt p2 a = some g := by unfold prevAt; rw [ha]
    rw [e2, ← e1]
    exact h2

/-- The boundary context is irrelevant when the head is not a digit. -/
theorem numOk_prev_irrel {p1 p2 : Option Char} {y : List Char}
    (hhead : ∀ d, y.head? = some d → d.isDigit = false)
    (h : NumOk p1 y) : NumOk p2 y := by
  cases y with
  | nil => exact numOk_nil p2
  | cons c rest =>
    obtain ⟨h0, h1⟩ := numOk_cons_elim h
    refine numOk_cons_intro ?_ h1
    have : c.isDigit = false := hhead c rfl
    rw [this]
    rfl

/-- Prepending digit-free characters preserves `NumOk`. -/
theorem numOk_append_of_not_digit {prev : Option Char} {u out : List Char}
    (hu : ∀ c ∈ u, c.isDigit = false)
    (h : NumOk (prevAt prev u) out) : NumOk prev (u ++ out) := by
  induction u generalizing prev with
  | nil => exact h
  | cons c u ih =>
    rw [List.cons_append]
    refine numOk_cons_intro ?_ ?_
    · rw [hu c (List.mem_cons_self c u)]
      rfl
    · refine ih (fun x hx => hu x (List.mem_cons_of_mem c hx)) ?_
      rwa [prevAt_cons] at h

/-- `WsOk` holds of the empty list. -/
theorem wsOk_nil : WsOk [] := by
  constructor
  · intro c hc
    exact absurd hc (List.not_mem_nil c)
  · intro d t hsuf
    have := List.eq_nil_of_suffix_nil hsuf
    exact absurd this (by simp)

/-- Splitting off the head of a `WsOk` list. -/
theorem wsOk_cons_elim {c : Char} {y : List Char} (h : WsOk (c :: y)) : WsOk y := by
  obtain ⟨h1, h2⟩ := h
  exact ⟨fun x hx hs => h1 x (List.mem_cons_of_mem c hx) hs,
    fun d t hsuf => h2 d t (hsuf.trans (List.suffix_cons c y))⟩

/-- Rebuilding a `WsOk` list from its head. -/
theorem wsOk_cons_intro {c : Char} {y : List Char}
    (h1 : isJsSpace c = true → c = ' ')
    (h2 : ∀ d t, y = d :: t → c = ' ' → isJsSpace d = false)
    (h : WsOk y) : WsOk (c :: y) := by
  obtain ⟨w1, w2⟩ := h
  constructor
  · intro x hx hs
    rcases List.mem_cons.mp hx with rfl | hx2
    · exact h1 hs
    · exact w1 x hx2 hs
  · intro d t hsuf
    rcases List.suffix_cons_iff.mp hsuf with heq | hsuf2
    · injection heq with e1 e2
      exact h2 d t e2.symm e1.symm
    · exact w2 d t hsuf2

/-! #### Infix closure, and `jsTrim` produces an infix. -/

/-- `NoCD` holds of any infix. -/
theorem noCD_infix {y s : List Char} (h : NoCD y) (hs : s <:+: y) : NoCD s := by
  obtain ⟨p, q, rfl⟩ := hs
  intro d t hsuf
  obtain ⟨a, rfl⟩ := hsuf
  have hsuf2 : ':' :: d :: (t ++ q) <:+ p ++ (a ++ ':' :: d :: t) ++ q :=
    ⟨p ++ a, by simp⟩
  exact h d (t ++ q) hsuf2

/-- `NoUuid` holds of any infix. -/
theorem noUuid_infix {y s : List Char} (h : NoUuid y) (hs : s <:+: y) : NoUuid s := by
  obtain ⟨p, q, rfl⟩ := hs
  intro t hsuf
  obtain ⟨a, rfl⟩ := hsuf
  have hsuf2 : '/' :: (t ++ q) <:+ p ++ (a ++ '/' :: t) ++ q := ⟨p ++ a, by simp⟩
  have hq := h (t ++ q) hsuf2
  by_cases hlen : 36 ≤ t.length
  · have htake : (t ++ q).take 36 = t.take 36 := List.take_append_of_le_length hlen
    have hlen2 : 36 ≤ (t ++ q).length := by
      rw [List.length_append]; omega
    rw [htake] at hq
    simp only [Bool.and_eq_false_iff, decide_eq_true_eq] at hq ⊢
    rcases hq with hq | hq
    · exact absurd hlen2 (by simpa using hq)
    · exact Or.inr hq
  · simp only [Bool.and_eq_false_iff, decide_eq_true_eq]
    exact Or.inl (by simpa using hlen)

/-- The pair component of `WsOk` holds of any infix; the character
component needs only membership. -/
theorem wsOk_infix {y s : List Char} (h : WsOk y) (hs : s <:+: y) : WsOk s := by
  obtain ⟨p, q, rfl⟩ := hs
  obtain ⟨h1, h2⟩ := h
  constructor
  · intro c hc hsp
    exact h1 c (by simp [hc]) hsp
  · intro d t hsuf
    obtain ⟨a, rfl⟩ := hsuf
    have hsuf2 : ' ' :: d :: (t ++ q) <:+ p ++ (a ++ ' ' :: d :: t) ++ q :=
      ⟨p ++ a, by simp⟩
    exact h2 d (t ++ q) hsuf2

/-- `NoUpper` holds of any infix. -/
theorem noUpper_infix {y s : List Char} (h : NoUpper y) (hs : s <:+: y) : NoUpper s := by
  obtain ⟨p, q, rfl⟩ := hs
  intro c hc
  exact h c (by simp [hc])

/-- A whitespace character is never a word character. -/
theorem isWordChar_of_space {c : Char} (h : isJsSpace c = true) : isWordChar c = false := by
  unfold isJsSpace at h
  simp only [Bool.or_eq_true, decide_eq_true_eq] at h
  obtain (((((h | h) | h) | h) | h) | h) := h <;> subst h <;> decide

/-- The witness of a `getLast?` is a member. -/
theorem mem_of_getLast?_eq {l : List Char} {a : Char} (h : l.getLast? = some a) : a ∈ l := by
  have hmem : a ∈ l.getLast? := by rw [Option.mem_def]; exact h
  obtain ⟨hne, heq⟩ := List.mem_getLast?_eq_getLast hmem
  rw [heq]
  exact List.getLast_mem hne

/-- Dropping over a wholly satisfying prefix skips it. -/
theorem dropWhile_all_append {p : Char → Bool} :
    ∀ (l₁ l₂ : List Char), (∀ c ∈ l₁, p c = true) →
      (l₁ ++ l₂).dropWhile p = l₂.dropWhile p := by
  intro l₁
  induction l₁ with
  | nil => intro l₂ _; rfl
  | cons c l ih =>
    intro l₂ hall
    rw [List.cons_append, List.dropWhile_cons, if_pos (hall c (List.mem_cons_self c l))]
    exact ih l₂ (fun x hx => hall x (List.mem_cons_of_mem c hx))

/-- An after-boundary survives appending trailing whitespace. -/
theorem afterBoundary_append_ws {t q : List Char}
    (ha : afterBoundary (t.dropWhile Char.isDigit) = true)
    (hq : ∀ c ∈ q, isJsSpace c = true) :
    afterBoundary ((t ++ q).dropWhile Char.isDigit) = true := by
  cases hdw : t.dropWhile Char.isDigit with
  | nil =>
    have htall : ∀ x ∈ t, Char.isDigit x = true := List.dropWhile_eq_nil_iff.mp hdw
    rw [dropWhile_all_append t q htall]
    cases hqd : q.dropWhile Char.isDigit with
    | nil => rfl
    | cons z zs =>
      have hzq : z ∈ q := by
        have hsub : List.Sublist (q.dropWhile Char.isDigit) q := List.dropWhile_sublist _
        rw [hqd] at hsub
        exact hsub.subset (List.mem_cons_self z zs)
      show (!isWordChar z) = true
      rw [isWordChar_of_space (hq z hzq)]
      rfl
  | cons z zs =>
    have hz : Char.isDigit z = false := head_dropWhile_false hdw
    have h6 : t = t.takeWhile Char.isDigit ++ (z :: zs) := by
      rw [← hdw, List.takeWhile_append_dropWhile]
    have h7 : (t ++ q).dropWhile Char.isDigit = z :: (zs ++ q) := by
      conv_lhs => rw [h6]
      rw [List.append_assoc,
        dropWhile_all_append _ _ (fun x hx => List.mem_takeWhile_imp hx),
        List.cons_append, List.dropWhile_cons, if_neg (by rw [hz]; simp)]
    rw [h7]
    rw [hdw] at ha
    exact ha

/-- A before-boundary survives prepending leading whitespace. -/
theorem prevBoundary_prevAt_ws {p a : List Char}
    (hp : ∀ c ∈ p, isJsSpace c = true)
    (hb : prevBoundary (prevAt none a) = true) :
    prevBoundary (prevAt none (p ++ a)) = true := by
  rw [prevAt_append]
  cases hal : a.getLast? with
  | some g =>
    have e1 : prevAt (prevAt none p) a = some g := by unfold prevAt; rw [hal]
    have e2 : prevAt (none : Option Char) a = some g := by unfold prevAt; rw [hal]
    rw [e1]
    rw [e2] at hb
    exact hb
  | none =>
    have e1 : prevAt (prevAt none p) a = prevAt none p := by unfold prevAt; rw [hal]
    rw [e1]
    cases hpl : p.getLast? with
    | none =>
      have : prevAt (none : Option Char) p = none := by unfold prevAt; rw [hpl]
      rw [this]; rfl
    | some g =>
      have : prevAt (none : Option Char) p = some g := by unfold prevAt; rw [hpl]
      rw [this]
      show (!isWordChar g) = true
      rw [isWordChar_of_space (hp g (mem_of_getLast?_eq hpl))]
      rfl

/-- `NumOk` transfers from a string to its whitespace-trimmed infix. -/
theorem numOk_ws_infix {y : List Char} {p q s : List Char}
    (hy : y = p ++ s ++ q)
    (hp : ∀ c ∈ p, isJsSpace c = true) (hq : ∀ c ∈ q, isJsSpace c = true)
    (h : NumOk none y) : NumOk none s := by
  intro a c t hsplit
  subst hsplit
  have hsplit2 : y = (p ++ a) ++ c :: (t ++ q) := by
    rw [hy]; simp
  have h2 := h (p ++ a) c (t ++ q) hsplit2
  by_contra hcon
  rw [Bool.not_eq_false] at hcon
  simp only [Bool.and_eq_true] at hcon
  obtain ⟨⟨hd, hb⟩, ha⟩ := hcon
  rw [hd, prevBoundary_prevAt_ws hp hb, afterBoundary_append_ws ha hq] at h2
  simp at h2

/-- `jsTrim` yields an infix whose complement is all whitespace. -/
theorem jsTrim_parts (y : List Char) :
    ∃ p q, y = p ++ jsTrim y ++ q ∧
      (∀ c ∈ p, isJsSpace c = true) ∧ (∀ c ∈ q, isJsSpace c = true) := by
  refine ⟨y.takeWhile isJsSpace,
    ((y.dropWhile isJsSpace).reverse.takeWhile isJsSpace).reverse,
    ?_, fun c hc => List.mem_takeWhile_imp hc,
    fun c hc => List.mem_takeWhile_imp (List.mem_reverse.mp hc)⟩
  have h2 : ((y.dropWhile isJsSpace).reverse.takeWhile isJsSpace) ++
      ((y.dropWhile isJsSpace).reverse.dropWhile isJsSpace) =
        (y.dropWhile isJsSpace).reverse :=
    List.takeWhile_append_dropWhile isJsSpace (y.dropWhile isJsSpace).reverse
  have h3 := congrArg List.reverse h2
  rw [List.reverse_append, List.reverse_reverse] at h3
  conv_lhs => rw [← List.takeWhile_append_dropWhile isJsSpace y, ← h3]
  rw [← List.append_assoc]
  rfl

/-- `jsTrim` yields an infix. -/
theorem jsTrim_infix_self (y : List Char) : jsTrim y <:+: y := by
  obtain ⟨p, q, hy, _, _⟩ := jsTrim_parts y
  exact ⟨p, q, hy.symm⟩


/-! #### Heads of scanner outputs. -/

/-- The port scanner's output head is the input head or a token colon. -/
theorem portScanF_head (n : Nat) (y : List Char) :
    (portScanF n y).head? = y.head? ∨ (portScanF n y).head? = some ':' := by
  cases n with
  | zero => cases y with
    | nil => exact Or.inl rfl
    | cons c rest => exact Or.inl rfl
  | succ n =>
    cases y with
    | nil => exact Or.inl rfl
    | cons c rest =>
      rw [portScanF_succ]
      by_cases h1 : (c = ':' &&
          (match rest.head? with | some d => d.isDigit | none => false)) = true
      · rw [if_pos h1]
        exact Or.inr rfl
      · rw [if_neg h1]
        exact Or.inl rfl

/-- The UUID scanner's output head is the input head or a token slash. -/
theorem uuidScanF_head (n : Nat) (y : List Char) :
    (uuidScanF n y).head? = y.head? ∨ (uuidScanF n y).head? = some '/' := by
  cases n with
  | zero => cases y with
    | nil => exact Or.inl rfl
    | cons c rest => exact Or.inl rfl
  | succ n =>
    cases y with
    | nil => exact Or.inl rfl
    | cons c rest =>
      rw [uuidScanF_succ]
      by_cases h1 : (c = '/' && 36 ≤ rest.length && (rest.take 36).all isUuidChar) = true
      · rw [if_pos h1]
        exact Or.inr rfl
      · rw [if_neg h1]
        exact Or.inl rfl

/-- The number scanner's output head is the input head or a token `'<'`. -/
theorem numScanF_head (n : Nat) (prev : Option Char) (y : List Char) :
    (numScanF n prev y).head? = y.head? ∨ (numScanF n prev y).head? = some '<' := by
  cases n with
  | zero => cases y with
    | nil => exact Or.inl rfl
    | cons c rest => exact Or.inl rfl
  | succ n =>
    cases y with
    | nil => exact Or.inl rfl
    | cons c rest =>
      rw [numScanF_succ]
      by_cases h1 : (c.isDigit && prevBoundary prev) = true
      · by_cases h2 : afterBoundary (rest.dropWhile Char.isDigit) = true
        · rw [if_pos h1, if_pos h2]
          exact Or.inr rfl
        · rw [if_pos h1, if_neg h2]
          exact Or.inl rfl
      · rw [if_neg h1]
        exact Or.inl rfl

/-- The whitespace scanner's output head is the input head or a space. -/
theorem wsScanF_head (n : Nat) (y : List Char) :
    (wsScanF n y).head? = y.head? ∨ (wsScanF n y).head? = some ' ' := by
  cases n with
  | zero => cases y with
    | nil => exact Or.inl rfl
    | cons c rest => exact Or.inl rfl
  | succ n =>
    cases y with
    | nil => exact Or.inl rfl
    | cons c rest =>
      rw [wsScanF_succ]
      by_cases h1 : isJsSpace c = true
      · rw [if_pos h1]
        exact Or.inr rfl
      · rw [if_neg h1]
        exact Or.inl rfl

/-- The whitespace scanner does not change a non-space head. -/
theorem wsScanF_head_not_space (n : Nat) (y : List Char)
    (h : ∀ d, y.head? = some d → isJsSpace d = false) :
    (wsScanF n y).head? = y.head? := by
  cases n with
  | zero => cases y with
    | nil => rfl
    | cons c rest => rfl
  | succ n =>
    cases y with
    | nil => rfl
    | cons c rest =>
      rw [wsScanF_succ, if_neg (by rw [h c rfl]; simp)]
      rfl

/-- The number scanner does not change a non-digit head. -/
theorem numScanF_head_not_digit (n : Nat) (prev : Option Char) (y : List Char)
    (h : ∀ d, y.head? = some d → d.isDigit = false) :
    (numScanF n prev y).head? = y.head? := by
  cases n with
  | zero => cases y with
    | nil => rfl
    | cons c rest => rfl
  | succ n =>
    cases y with
    | nil => rfl
    | cons c rest =>
      rw [numScanF_succ, if_neg (by rw [h c rfl]; simp)]
      rfl

/-! #### Transfer of a failed UUID window along prefix agreement. -/

/-- If an output agrees with its source up to a position where it holds a
non-UUID character, a failed 36-character window on the source stays
failed on the output. -/
theorem window_transfer {out y : List Char} {δ : Char} (hδ : isUuidChar δ = false)
    (hagree : ∃ j, out.take j = y.take j ∧
      ((out.drop j = [] ∧ y.drop j = []) ∨ (out.drop j).head? = some δ))
    (hy : (36 ≤ y.length && (y.take 36).all isUuidChar) = false) :
    (36 ≤ out.length && (out.take 36).all isUuidChar) = false := by
  obtain ⟨j, h1, h2⟩ := hagree
  rcases h2 with ⟨ho, hyd⟩ | hhead
  · have hout : out = y := by
      have e1 : out = out.take j :=
        (List.take_of_length_le (List.drop_eq_nil_iff.mp ho)).symm
      have e2 : y = y.take j :=
        (List.take_of_length_le (List.drop_eq_nil_iff.mp hyd)).symm
      rw [e1, e2, h1]
    rw [hout]
    exact hy
  · have hjlt : j < out.length := by
      have hne : out.drop j ≠ [] := by
        intro h3
        rw [h3] at hhead
        exact absurd hhead (by simp)
      rw [← List.length_pos] at hne
      rw [List.length_drop] at hne
      omega
    by_cases hj : j < 36
    · have hδj : out[j]? = some δ := by
        have := hhead
        rw [List.head?_eq_getElem? (out.drop j), List.getElem?_drop] at this
        simpa using this
      have hmem : δ ∈ out.take 36 := by
        have : (out.take 36)[j]? = some δ := by
          rw [List.getElem?_take, if_pos hj]
          exact hδj
        obtain ⟨hlt, heq⟩ := List.getElem?_eq_some.mp this
        rw [← heq]
        exact List.getElem_mem hlt
      cases hall : (out.take 36).all isUuidChar with
      | false => simp [hall]
      | true =>
        have := List.all_eq_true.mp hall δ hmem
        rw [hδ] at this
        exact absurd this (by simp)
    · have hj36 : 36 ≤ j := by omega
      have hjy : j ≤ y.length := by
        have := congrArg List.length h1
        rw [List.length_take, List.length_take] at this
        omega
      have htake : out.take 36 = y.take 36 := by
        have e1 : out.take 36 = (out.take j).take 36 := by
          rw [List.take_take, min_eq_left hj36]
        have e2 : y.take 36 = (y.take j).take 36 := by
          rw [List.take_take, min_eq_left hj36]
        rw [e1, e2, h1]
      have hylen : 36 ≤ y.length := le_trans hj36 hjy
      rw [htake]
      simp only [Bool.and_eq_false_iff, decide_eq_true_eq] at hy ⊢
      rcases hy with hy | hy
      · exact absurd hylen (by simpa using hy)
      · exact Or.inr hy


/-! #### Each stage establishes its own fixed-point condition. -/

/-- `NoCD` holds of the empty list. -/
theorem noCD_nil : NoCD [] := by
  intro d t hsuf
  exact absurd (List.eq_nil_of_suffix_nil hsuf) (by simp)

/-- `NoUuid` holds of the empty list. -/
theorem noUuid_nil : NoUuid [] := by
  intro t hsuf
  exact absurd (List.eq_nil_of_suffix_nil hsuf) (by simp)

/-- A digit is a word character. -/
theorem isWordChar_of_digit {c : Char} (h : c.isDigit = true) : isWordChar c = true := by
  unfold isWordChar Char.isAlphanum
  rw [h]
  simp

/-- `getLastD` of a nonempty list is a member. -/
theorem getLastD_mem {a : List Char} (c : Char) (h : a ≠ []) : a.getLastD c ∈ a := by
  rw [List.getLastD_eq_getLast?, List.getLast?_eq_getLast_of_ne_nil h]
  exact List.getLast_mem h

/-- `afterBoundary` only looks at the head. -/
theorem afterBoundary_congr_head {l1 l2 : List Char} (h : l1.head? = l2.head?) :
    afterBoundary l1 = afterBoundary l2 := by
  cases l1 with
  | nil =>
    cases l2 with
    | nil => rfl
    | cons b bs => exact absurd h (by simp)
  | cons a as =>
    cases l2 with
    | nil => exact absurd h (by simp)
    | cons b bs =>
      have : a = b := by
        simpa using h
      rw [this]
      rfl

/-- After the port scanner runs out to the end, no colon-digit pair
remains. -/
theorem portScanF_noCD : ∀ (n : Nat) (y : List Char),
    y.length ≤ n → NoCD (portScanF n y) := by
  intro n
  induction n with
  | zero =>
    intro y hlen
    have : y = [] := List.length_eq_zero.mp (Nat.le_zero.mp hlen)
    subst this
    exact noCD_nil
  | succ n ih =>
    intro y hlen
    cases y with
    | nil => exact noCD_nil
    | cons c rest =>
      rw [portScanF_succ]
      simp only [List.length_cons] at hlen
      have hrest : rest.length ≤ n := by omega
      by_cases h1 : (c = ':' &&
          (match rest.head? with | some d => d.isDigit | none => false)) = true
      · rw [if_pos h1]
        have hlen2 : (rest.dropWhile Char.isDigit).length ≤ n :=
          le_trans (List.dropWhile_sublist _).length_le hrest
        have hout := ih (rest.dropWhile Char.isDigit) hlen2
        have htok : ":<port>".toList ++ portScanF n (rest.dropWhile Char.isDigit) =
            ':' :: '<' :: (['p', 'o', 'r', 't', '>'] ++
              portScanF n (rest.dropWhile Char.isDigit)) := rfl
        rw [htok]
        refine noCD_cons ?_ (noCD_cons ?_ (noCD_append (by decide) hout))
        · intro d t _ heq
          injection heq with e1 _
          rw [← e1]
          decide
        · intro d t hc _
          exact absurd hc (by decide)
      · rw [if_neg h1]
        refine noCD_cons ?_ (ih rest hrest)
        intro d t hc heq
        subst hc
        have hmatch : (match rest.head? with
            | some d => d.isDigit | none => false) = false := by
          by_contra h3
          rw [Bool.not_eq_false] at h3
          exact h1 (by rw [h3]; simp)
        rcases portScanF_head n rest with hh | hh
        · rw [heq] at hh
          have hr : rest.head? = some d := by rw [← hh]; rfl
          rw [hr] at hmatch
          exact hmatch
        · rw [heq] at hh
          have hd : d = ':' := by simpa using hh
          rw [hd]
          decide

/-- After the UUID scanner runs out to the end, no slash opens a valid
36-character UUID window. -/
theorem uuidScanF_noUuid : ∀ (n : Nat) (y : List Char),
    y.length ≤ n → NoUuid (uuidScanF n y) := by
  intro n
  induction n with
  | zero =>
    intro y hlen
    have : y = [] := List.length_eq_zero.mp (Nat.le_zero.mp hlen)
    subst this
    exact noUuid_nil
  | succ n ih =>
    intro y hlen
    cases y with
    | nil => exact noUuid_nil
    | cons c rest =>
      rw [uuidScanF_succ]
      simp only [List.length_cons] at hlen
      have hrest : rest.length ≤ n := by omega
      by_cases h1 : (c = '/' && 36 ≤ rest.length && (rest.take 36).all isUuidChar) = true
      · rw [if_pos h1]
        have hlen2 : (rest.drop 36).length ≤ n := by
          rw [List.length_drop]
          omega
        have hout := ih (rest.drop 36) hlen2
        have htok : "/<uuid>".toList ++ uuidScanF n (rest.drop 36) =
            '/' :: '<' :: (['u', 'u', 'i', 'd', '>'] ++ uuidScanF n (rest.drop 36)) := rfl
        rw [htok]
        refine noUuid_cons ?_ (noUuid_cons ?_ (noUuid_append (by decide) hout))
        · intro _
          exact uuid_window_lt _
        · intro hc
          exact absurd hc (by decide)
      · rw [if_neg h1]
        refine noUuid_cons ?_ (ih rest hrest)
        intro hc
        subst hc
        have hwin : (36 ≤ rest.length && (rest.take 36).all isUuidChar) = false := by
          by_contra h3
          rw [Bool.not_eq_false] at h3
          apply h1
          rw [Bool.and_assoc, h3]
          simp
        exact window_transfer (by decide) (uuidScanF_prefixAgree n rest) hwin

/-- After the whitespace scanner runs out to the end, whitespace is
collapsed. -/
theorem wsScanF_wsOk : ∀ (n : Nat) (y : List Char),
    y.length ≤ n → WsOk (wsScanF n y) := by
  intro n
  induction n with
  | zero =>
    intro y hlen
    have : y = [] := List.length_eq_zero.mp (Nat.le_zero.mp hlen)
    subst this
    exact wsOk_nil
  | succ n ih =>
    intro y hlen
    cases y with
    | nil => exact wsOk_nil
    | cons c rest =>
      rw [wsScanF_succ]
      simp only [List.length_cons] at hlen
      have hrest : rest.length ≤ n := by omega
      by_cases h1 : isJsSpace c = true
      · rw [if_pos h1]
        have hlen2 : (rest.dropWhile isJsSpace).length ≤ n :=
          le_trans (List.dropWhile_sublist _).length_le hrest
        have hns : ∀ d, (rest.dropWhile isJsSpace).head? = some d →
            isJsSpace d = false := by
          intro d hd
          cases hr2 : rest.dropWhile isJsSpace with
          | nil => rw [hr2] at hd; exact absurd hd (by simp)
          | cons z zs =>
            rw [hr2] at hd
            injection hd with e
            rw [← e]
            exact head_dropWhile_false hr2
        refine wsOk_cons_intro (fun _ => rfl) ?_ (ih (rest.dropWhile isJsSpace) hlen2)
        intro d t heq _
        have hh := wsScanF_head_not_space n (rest.dropWhile isJsSpace) hns
        rw [heq] at hh
        exact hns d hh.symm
      · rw [if_neg h1]
        rw [Bool.not_eq_true] at h1
        refine wsOk_cons_intro ?_ ?_ (ih rest hrest)
        · intro hs
          rw [h1] at hs
          exact absurd hs (by simp)
        · intro d t _ hc
          subst hc
          exact absurd h1 (by decide)


/-- After the number scanner runs out to the end, no boundary-delimited
digit run remains. -/
theorem numScanF_numOk : ∀ (n : Nat) (prev : Option Char) (y : List Char),
    y.length ≤ n → NumOk prev (numScanF n prev y) := by
  intro n
  induction n with
  | zero =>
    intro prev y hlen
    have : y = [] := List.length_eq_zero.mp (Nat.le_zero.mp hlen)
    subst this
    exact numOk_nil prev
  | succ n ih =>
    intro prev y hlen
    cases y with
    | nil => exact numOk_nil prev
    | cons c rest =>
      rw [numScanF_succ]
      simp only [List.length_cons] at hlen
      have hrest : rest.length ≤ n := by omega
      by_cases h1 : (c.isDigit && prevBoundary prev) = true
      · have hlen2 : (rest.dropWhile Char.isDigit).length ≤ n :=
          le_trans (List.dropWhile_sublist _).length_le hrest
        have hr2head : ∀ d, (rest.dropWhile Char.isDigit).head? = some d →
            d.isDigit = false := by
          intro d hd
          cases hr2 : rest.dropWhile Char.isDigit with
          | nil => rw [hr2] at hd; exact absurd hd (by simp)
          | cons z zs =>
            rw [hr2] at hd
            injection hd with e
            rw [← e]
            exact head_dropWhile_false hr2
        have hout := ih (some ((c :: rest.takeWhile Char.isDigit).getLastD c))
          (rest.dropWhile Char.isDigit) hlen2
        have houthead : ∀ d,
            (numScanF n (some ((c :: rest.takeWhile Char.isDigit).getLastD c))
              (rest.dropWhile Char.isDigit)).head? = some d → d.isDigit = false := by
          intro d hd
          rw [numScanF_head_not_digit n _ _ hr2head] at hd
          exact hr2head d hd
        by_cases h2 : afterBoundary (rest.dropWhile Char.isDigit) = true
        · rw [if_pos h1, if_pos h2]
          exact numOk_append_of_not_digit (by decide) (numOk_prev_irrel houthead hout)
        · rw [if_pos h1, if_neg h2]
          intro a d t hsplit
          rcases List.append_eq_append_iff.mp hsplit.symm with ⟨w, hw1, hw2⟩ | ⟨w, hw1, hw2⟩
          · -- the split lands inside the copied digit run
            cases w with
            | nil =>
              rw [List.nil_append] at hw2
              have hd : d.isDigit = false := houthead d (by rw [← hw2]; rfl)
              rw [hd]
              rfl
            | cons x w2 =>
              rw [List.cons_append] at hw2
              injection hw2 with e1 e2
              subst e1
              cases a with
              | nil =>
                rw [List.nil_append] at hw1
                injection hw1 with f1 f2
                subst f1
                have hw2d : ∀ x ∈ w2, Char.isDigit x = true := by
                  intro x hx
                  rw [← f2] at hx
                  exact List.mem_takeWhile_imp hx
                have hdw : t.dropWhile Char.isDigit =
                    (numScanF n (some ((c :: rest.takeWhile Char.isDigit).getLastD c))
                      (rest.dropWhile Char.isDigit)).dropWhile Char.isDigit := by
                  rw [e2]
                  exact dropWhile_all_append w2 _ hw2d
                have hdw2 : (numScanF n
                    (some ((c :: rest.takeWhile Char.isDigit).getLastD c))
                    (rest.dropWhile Char.isDigit)).dropWhile Char.isDigit =
                      numScanF n (some ((c :: rest.takeWhile Char.isDigit).getLastD c))
                        (rest.dropWhile Char.isDigit) := by
                  cases ho : numScanF n (some ((c :: rest.takeWhile Char.isDigit).getLastD c))
                      (rest.dropWhile Char.isDigit) with
                  | nil => rfl
                  | cons z zs =>
                    rw [List.dropWhile_cons,
                      if_neg (by rw [houthead z (by rw [ho]; rfl)]; simp)]
                have hab : afterBoundary (t.dropWhile Char.isDigit) = false := by
                  rw [hdw, hdw2]
                  rw [Bool.not_eq_true] at h2
                  rw [← h2]
                  refine afterBoundary_congr_head ?_
                  exact numScanF_head_not_digit n _ _ hr2head
                rw [hab]
                simp
              | cons a0 a1 =>
                have hane : a0 :: a1 ≠ ([] : List Char) := by simp
                rw [prevAt_ne_nil prev (a0 :: a1) c hane]
                have hmem : (a0 :: a1).getLastD c ∈ c :: rest.takeWhile Char.isDigit := by
                  rw [hw1]
                  exact List.mem_append_left _ (getLastD_mem c hane)
                have hdig : ((a0 :: a1).getLastD c).isDigit = true := by
                  rcases List.mem_cons.mp hmem with hg | hg
                  · rw [hg]
                    have h1b := h1
                    simp only [Bool.and_eq_true] at h1b
                    exact h1b.1
                  · exact List.mem_takeWhile_imp hg
                show (d.isDigit && (!isWordChar ((a0 :: a1).getLastD c)) &&
                    afterBoundary (t.dropWhile Char.isDigit)) = false
                rw [isWordChar_of_digit hdig]
                simp
          · -- the split lands inside the scanned remainder
            have hcond := hout w d t hw2
            rw [hw1, prevAt_append,
              prevAt_ne_nil prev (c :: rest.takeWhile Char.isDigit) c (by simp)]
            exact hcond
      · rw [if_neg h1]
        rw [Bool.not_eq_true] at h1
        refine numOk_cons_intro ?_ (ih (some c) rest hrest)
        rw [h1]
        rfl


/-! #### A string with no boundary-delimited digit run has no IP match:
the second digit group of an IP match is a standalone digit run. -/

/-- The anatomy of a successful IP parse, up to its second dot. -/
theorem ipMatchLen_shape {s : List Char} {k : Nat} (h : ipMatchLen s = some k) :
    digitRunLen s ≠ 0 ∧ ∃ r1, s.drop (digitRunLen s) = '.' :: r1 ∧
      digitRunLen r1 ≠ 0 ∧ ∃ r2, r1.drop (digitRunLen r1) = '.' :: r2 := by
  unfold ipMatchLen at h
  dsimp only [] at h
  split at h
  · exact absurd h (by simp)
  · split at h
    · split at h
      · exact absurd h (by simp)
      · split at h
        · rename_i hd1 x1 r1 hdrop hd2 x2 r2 hdrop2
          exact ⟨hd1, r1, hdrop, hd2, r2, hdrop2⟩
        · exact absurd h (by simp)
    · exact absurd h (by simp)

/-- Dropping the leading digit run is `dropWhile isDigit`. -/
theorem drop_digitRunLen : ∀ (s : List Char),
    s.drop (digitRunLen s) = s.dropWhile Char.isDigit := by
  intro s
  induction s with
  | nil => rfl
  | cons c rest ih =>
    by_cases hc : Char.isDigit c = true
    · have h1 : digitRunLen (c :: rest) = digitRunLen rest + 1 := by
        unfold digitRunLen
        rw [List.takeWhile_cons, if_pos hc]
        rfl
      rw [h1, List.drop_succ_cons, ih, List.dropWhile_cons, if_pos hc]
    · have h1 : digitRunLen (c :: rest) = 0 := by
        unfold digitRunLen
        rw [List.takeWhile_cons, if_neg hc]
        rfl
      rw [h1, List.drop_zero, List.dropWhile_cons, if_neg hc]

/-- `NumOk` rules out every IP-shaped substring. -/
theorem numOk_noIp {prev : Option Char} {y : List Char} (h : NumOk prev y) : NoIp y := by
  intro s hs
  cases hip : ipMatchLen s with
  | none => rfl
  | some k =>
    exfalso
    obtain ⟨hd1, r1, hdrop, hd2, r2, hdrop2⟩ := ipMatchLen_shape hip
    have hdw1 : s.dropWhile Char.isDigit = '.' :: r1 := by
      rw [← drop_digitRunLen s]
      exact hdrop
    have hdw2 : r1.dropWhile Char.isDigit = '.' :: r2 := by
      rw [← drop_digitRunLen r1]
      exact hdrop2
    have hs1 : s = s.takeWhile Char.isDigit ++ '.' :: r1 := by
      conv_lhs => rw [← List.takeWhile_append_dropWhile Char.isDigit s]
      rw [hdw1]
    have hr1 : r1 = r1.takeWhile Char.isDigit ++ '.' :: r2 := by
      conv_lhs => rw [← List.takeWhile_append_dropWhile Char.isDigit r1]
      rw [hdw2]
    obtain ⟨a0, hy⟩ := hs
    cases htw1 : r1.takeWhile Char.isDigit with
    | nil =>
      apply hd2
      show (r1.takeWhile Char.isDigit).length = 0
      rw [htw1]
      rfl
    | cons c tw1 =>
      have hcdig : c.isDigit = true := by
        have hmem : c ∈ r1.takeWhile Char.isDigit := by
          rw [htw1]
          exact List.mem_cons_self c tw1
        exact List.mem_takeWhile_imp hmem
      have htw1d : ∀ x ∈ tw1, Char.isDigit x = true := by
        intro x hx
        have hmem : x ∈ r1.takeWhile Char.isDigit := by
          rw [htw1]
          exact List.mem_cons_of_mem c hx
        exact List.mem_takeWhile_imp hmem
      have hsplit : y = (a0 ++ s.takeWhile Char.isDigit ++ ['.']) ++
          c :: (tw1 ++ '.' :: r2) := by
        rw [← hy]
        conv_lhs => rw [hs1, hr1, htw1]
        simp
      have hcond := h _ c _ hsplit
      have hprev : prevAt prev (a0 ++ s.takeWhile Char.isDigit ++ ['.']) = some '.' := by
        unfold prevAt
        rw [List.getLast?_concat]
      have hafter : afterBoundary ((tw1 ++ '.' :: r2).dropWhile Char.isDigit) = true := by
        rw [dropWhile_all_append tw1 _ htw1d, List.dropWhile_cons, if_neg (by decide)]
        show (!isWordChar '.') = true
        decide
      rw [hcdig, hprev, hafter] at hcond
      exact absurd hcond (by decide)


/-! #### Later stages preserve the earlier stages' conditions. -/

/-- A digit is not a colon. -/
theorem ne_colon_of_digit {c : Char} (h : c.isDigit = true) : c ≠ ':' := by
  intro hc
  rw [hc] at h
  exact absurd h (by decide)

/-- A digit is not a slash. -/
theorem ne_slash_of_digit {c : Char} (h : c.isDigit = true) : c ≠ '/' := by
  intro hc
  rw [hc] at h
  exact absurd h (by decide)

/-- A digit is not whitespace. -/
theorem isJsSpace_of_digit {c : Char} (h : c.isDigit = true) : isJsSpace c = false := by
  cases hs : isJsSpace c with
  | false => rfl
  | true => exact absurd (isWordChar_of_digit h) (by rw [isWordChar_of_space hs]; simp)

/-- A word character is not whitespace. -/
theorem wordChar_not_space {c : Char} (h : isWordChar c = true) : isJsSpace c = false := by
  cases hs : isJsSpace c with
  | false => rfl
  | true => exact absurd h (by rw [isWordChar_of_space hs]; simp)

/-- The UUID scanner preserves `NoCD`. -/
theorem uuidScanF_noCD_pres : ∀ (n : Nat) (y : List Char),
    NoCD y → NoCD (uuidScanF n y) := by
  intro n
  induction n with
  | zero =>
    intro y h
    cases y with
    | nil => exact h
    | cons c rest => exact h
  | succ n ih =>
    intro y h
    cases y with
    | nil => exact h
    | cons c rest =>
      rw [uuidScanF_succ]
      have hrest : NoCD rest := noCD_suffix h (List.suffix_cons c rest)
      by_cases h1 : (c = '/' && 36 ≤ rest.length && (rest.take 36).all isUuidChar) = true
      · rw [if_pos h1]
        have hout := ih _ (noCD_suffix hrest (List.drop_suffix 36 rest))
        have htok : "/<uuid>".toList ++ uuidScanF n (rest.drop 36) =
            ['/', '<', 'u', 'u', 'i', 'd', '>'] ++ uuidScanF n (rest.drop 36) := rfl
        rw [htok]
        exact noCD_append (by decide) hout
      · rw [if_neg h1]
        refine noCD_cons ?_ (ih rest hrest)
        intro d t hc heq
        subst hc
        rcases uuidScanF_head n rest with hh | hh
        · rw [heq] at hh
          cases hr : rest with
          | nil =>
            rw [hr] at hh
            exact absurd hh (by simp)
          | cons z zs =>
            rw [hr] at hh
            have hz : d = z := by simpa using hh
            rw [hz]
            refine h z zs ?_
            rw [hr]
        · rw [heq] at hh
          have hz : d = '/' := by simpa using hh
          rw [hz]
          decide

/-- The number scanner preserves `NoCD`. -/
theorem numScanF_noCD_pres : ∀ (n : Nat) (prev : Option Char) (y : List Char),
    NoCD y → NoCD (numScanF n prev y) := by
  intro n
  induction n with
  | zero =>
    intro prev y h
    cases y with
    | nil => exact h
    | cons c rest => exact h
  | succ n ih =>
    intro prev y h
    cases y with
    | nil => exact h
    | cons c rest =>
      rw [numScanF_succ]
      have hrest : NoCD rest := noCD_suffix h (List.suffix_cons c rest)
      have hrest2 : NoCD (rest.dropWhile Char.isDigit) :=
        noCD_suffix hrest (List.dropWhile_suffix _)
      by_cases h1 : (c.isDigit && prevBoundary prev) = true
      · by_cases h2 : afterBoundary (rest.dropWhile Char.isDigit) = true
        · rw [if_pos h1, if_pos h2]
          have htok : "<n>".toList ++ numScanF n
              (some ((c :: rest.takeWhile Char.isDigit).getLastD c))
              (rest.dropWhile Char.isDigit) =
            ['<', 'n', '>'] ++ numScanF n
              (some ((c :: rest.takeWhile Char.isDigit).getLastD c))
              (rest.dropWhile Char.isDigit) := rfl
          rw [htok]
          exact noCD_append (by decide) (ih _ _ hrest2)
        · rw [if_pos h1, if_neg h2]
          refine noCD_append ?_ (ih _ _ hrest2)
          intro x hx
          rcases List.mem_cons.mp hx with hx | hx
          · rw [hx]
            have h1b := h1
            simp only [Bool.and_eq_true] at h1b
            exact ne_colon_of_digit h1b.1
          · exact ne_colon_of_digit (List.mem_takeWhile_imp hx)
      · rw [if_neg h1]
        refine noCD_cons ?_ (ih (some c) rest hrest)
        intro d t hc heq
        subst hc
        rcases numScanF_head n (some ':') rest with hh | hh
        · rw [heq] at hh
          cases hr : rest with
          | nil =>
            rw [hr] at hh
            exact absurd hh (by simp)
          | cons z zs =>
            rw [hr] at hh
            have hz : d = z := by simpa using hh
            rw [hz]
            refine h z zs ?_
            rw [hr]
        · rw [heq] at hh
          have hz : d = '<' := by simpa using hh
          rw [hz]
          decide

/-- The whitespace scanner preserves `NoCD`. -/
theorem wsScanF_noCD_pres : ∀ (n : Nat) (y : List Char),
    NoCD y → NoCD (wsScanF n y) := by
  intro n
  induction n with
  | zero =>
    intro y h
    cases y with
    | nil => exact h
    | cons c rest => exact h
  | succ n ih =>
    intro y h
    cases y with
    | nil => exact h
    | cons c rest =>
      rw [wsScanF_succ]
      have hrest : NoCD rest := noCD_suffix h (List.suffix_cons c rest)
      by_cases h1 : isJsSpace c = true
      · rw [if_pos h1]
        refine noCD_cons (fun d t hc _ => absurd hc (by decide)) ?_
        exact ih _ (noCD_suffix hrest (List.dropWhile_suffix _))
      · rw [if_neg h1]
        refine noCD_cons ?_ (ih rest hrest)
        intro d t hc heq
        subst hc
        rcases wsScanF_head n rest with hh | hh
        · rw [heq] at hh
          cases hr : rest with
          | nil =>
            rw [hr] at hh
            exact absurd hh (by simp)
          | cons z zs =>
            rw [hr] at hh
            have hz : d = z := by simpa using hh
            rw [hz]
            refine h z zs ?_
            rw [hr]
        · rw [heq] at hh
          have hz : d = ' ' := by simpa using hh
          rw [hz]
          decide

/-- The number scanner preserves `NoUuid`. -/
theorem numScanF_noUuid_pres : ∀ (n : Nat) (prev : Option Char) (y : List Char),
    NoUuid y → NoUuid (numScanF n prev y) := by
  intro n
  induction n with
  | zero =>
    intro prev y h
    cases y with
    | nil => exact h
    | cons c rest => exact h
  | succ n ih =>
    intro prev y h
    cases y with
    | nil => exact h
    | cons c rest =>
      rw [numScanF_succ]
      have hrest : NoUuid rest := noUuid_suffix h (List.suffix_cons c rest)
      have hrest2 : NoUuid (rest.dropWhile Char.isDigit) :=
        noUuid_suffix hrest (List.dropWhile_suffix _)
      by_cases h1 : (c.isDigit && prevBoundary prev) = true
      · by_cases h2 : afterBoundary (rest.dropWhile Char.isDigit) = true
        · rw [if_pos h1, if_pos h2]
          have htok : "<n>".toList ++ numScanF n
              (some ((c :: rest.takeWhile Char.isDigit).getLastD c))
              (rest.dropWhile Char.isDigit) =
            ['<', 'n', '>'] ++ numScanF n
              (some ((c :: rest.takeWhile Char.isDigit).getLastD c))
              (rest.dropWhile Char.isDigit) := rfl
          rw [htok]
          exact noUuid_append (by decide) (ih _ _ hrest2)
        · rw [if_pos h1, if_neg h2]
          refine noUuid_append ?_ (ih _ _ hrest2)
          intro x hx
          rcases List.mem_cons.mp hx with hx | hx
          · rw [hx]
            have h1b := h1
            simp only [Bool.and_eq_true] at h1b
            exact ne_slash_of_digit h1b.1
          · exact ne_slash_of_digit (List.mem_takeWhile_imp hx)
      · rw [if_neg h1]
        refine noUuid_cons ?_ (ih (some c) rest hrest)
        intro hc
        subst hc
        have hwin : (36 ≤ rest.length && (rest.take 36).all isUuidChar) = false :=
          h rest (List.suffix_refl _)
        exact window_transfer (by decide) (numScanF_prefixAgree n (some '/') rest) hwin

/-- The whitespace scanner preserves `NoUuid`. -/
theorem wsScanF_noUuid_pres : ∀ (n : Nat) (y : List Char),
    NoUuid y → NoUuid (wsScanF n y) := by
  intro n
  induction n with
  | zero =>
    intro y h
    cases y with
    | nil => exact h
    | cons c rest => exact h
  | succ n ih =>
    intro y h
    cases y with
    | nil => exact h
    | cons c rest =>
      rw [wsScanF_succ]
      have hrest : NoUuid rest := noUuid_suffix h (List.suffix_cons c rest)
      by_cases h1 : isJsSpace c = true
      · rw [if_pos h1]
        refine noUuid_cons (fun hc => absurd hc (by decide)) ?_
        exact ih _ (noUuid_suffix hrest (List.dropWhile_suffix _))
      · rw [if_neg h1]
        refine noUuid_cons ?_ (ih rest hrest)
        intro hc
        subst hc
        have hwin : (36 ≤ rest.length && (rest.take 36).all isUuidChar) = false :=
          h rest (List.suffix_refl _)
        exact window_transfer (by decide) (wsScanF_prefixAgree n rest) hwin

/-- Collapsing a whitespace run keeps `NumOk`, normalizing the context to
a plain space. -/
theorem numOk_drop_space : ∀ (rest : List Char) (w : Char), isJsSpace w = true →
    NumOk (some w) rest → NumOk (some ' ') (rest.dropWhile isJsSpace) := by
  intro rest
  induction rest with
  | nil =>
    intro w _ _
    exact numOk_nil _
  | cons z r ih =>
    intro w hw h
    by_cases hz : isJsSpace z = true
    · rw [List.dropWhile_cons, if_pos hz]
      exact ih z hz (numOk_cons_elim h).2
    · rw [List.dropWhile_cons, if_neg hz]
      refine numOk_congr_prev ?_ h
      show (!isWordChar w) = (!isWordChar ' ')
      rw [isWordChar_of_space hw]
      decide

/-- The whitespace scanner keeps the first non-digit character in place
when it is not whitespace. -/
theorem wsScanF_dropDigit_head : ∀ (n : Nat) (rest : List Char) (d : Char),
    (rest.dropWhile Char.isDigit).head? = some d → isJsSpace d = false →
    ((wsScanF n rest).dropWhile Char.isDigit).head? = some d := by
  intro n
  induction n with
  | zero =>
    intro rest d hd _
    cases rest with
    | nil => exact hd
    | cons c r => exact hd
  | succ n ih =>
    intro rest d hd hds
    cases rest with
    | nil => exact hd
    | cons c r =>
      rw [wsScanF_succ]
      by_cases hc : Char.isDigit c = true
      · rw [if_neg (by rw [isJsSpace_of_digit hc]; simp)]
        rw [List.dropWhile_cons, if_pos hc]
        rw [List.dropWhile_cons, if_pos hc] at hd
        exact ih r d hd hds
      · rw [List.dropWhile_cons, if_neg hc] at hd
        have he : c = d := by simpa using hd
        subst he
        rw [if_neg (by rw [hds]; simp)]
        rw [List.dropWhile_cons, if_neg hc]
        rfl

/-- The whitespace scanner preserves `NumOk`. -/
theorem wsScanF_numOk_pres : ∀ (n : Nat) (prev : Option Char) (y : List Char),
    NumOk prev y → NumOk prev (wsScanF n y) := by
  intro n
  induction n with
  | zero =>
    intro prev y h
    cases y with
    | nil => exact h
    | cons c rest => exact h
  | succ n ih =>
    intro prev y h
    cases y with
    | nil => exact h
    | cons c rest =>
      rw [wsScanF_succ]
      obtain ⟨h0, h1⟩ := numOk_cons_elim h
      by_cases hc : isJsSpace c = true
      · rw [if_pos hc]
        have h3 := ih (some ' ') _ (numOk_drop_space rest c hc h1)
        refine numOk_cons_intro ?_ h3
        have hsd : (' ').isDigit = false := by decide
        rw [hsd]
        rfl
      · rw [if_neg hc]
        refine numOk_cons_intro ?_ (ih (some c) rest h1)
        by_cases hcd : (c.isDigit && prevBoundary prev) = true
        · have hab : afterBoundary (rest.dropWhile Char.isDigit) = false := by
            by_contra h4
            rw [Bool.not_eq_false] at h4
            rw [hcd, h4] at h0
            exact absurd h0 (by decide)
          cases hdw : rest.dropWhile Char.isDigit with
          | nil =>
            rw [hdw] at hab
            exact absurd hab (by decide)
          | cons d ds =>
            rw [hdw] at hab
            have hdword : isWordChar d = true := by
              have hb : (!isWordChar d) = false := hab
              simpa using hb
            have hh := wsScanF_dropDigit_head n rest d (by rw [hdw]; rfl)
              (wordChar_not_space hdword)
            have hout : afterBoundary
                ((wsScanF n rest).dropWhile Char.isDigit) = false := by
              rw [show afterBoundary ((wsScanF n rest).dropWhile Char.isDigit) =
                  afterBoundary (d :: ds) from afterBoundary_congr_head (by rw [hh]; rfl)]
              exact hab
            rw [hout]
            simp
        · rw [Bool.not_eq_true] at hcd
          rw [hcd]
          rfl


/-! #### Provenance: scanner output characters come from the input or
from a replacement token, none of which is uppercase. -/

/-- Characters of the IP scanner's output. -/
theorem mem_ipScanF : ∀ (n : Nat) (y : List Char) (c : Char),
    c ∈ ipScanF n y → c ∈ y ∨ c ∈ ['<', 'i', 'p', '>'] := by
  intro n
  induction n with
  | zero =>
    intro y c h
    cases y with
    | nil => exact Or.inl h
    | cons c0 rest => exact Or.inl h
  | succ n ih =>
    intro y c h
    cases y with
    | nil => exact Or.inl h
    | cons c0 rest =>
      rw [ipScanF_succ] at h
      cases hm : ipMatchLen (c0 :: rest) with
      | some k =>
        rw [hm] at h
        rcases List.mem_append.mp h with h | h
        · exact Or.inr h
        · rcases ih _ c h with h | h
          · exact Or.inl (List.mem_cons_of_mem c0 (List.mem_of_mem_drop h))
          · exact Or.inr h
      | none =>
        rw [hm] at h
        rcases List.mem_cons.mp h with h | h
        · exact Or.inl (by rw [h]; exact List.mem_cons_self c0 rest)
        · rcases ih rest c h with h | h
          · exact Or.inl (List.mem_cons_of_mem c0 h)
          · exact Or.inr h

/-- Characters of the port scanner's output. -/
theorem mem_portScanF : ∀ (n : Nat) (y : List Char) (c : Char),
    c ∈ portScanF n y → c ∈ y ∨ c ∈ [':', '<', 'p', 'o', 'r', 't', '>'] := by
  intro n
  induction n with
  | zero =>
    intro y c h
    cases y with
    | nil => exact Or.inl h
    | cons c0 rest => exact Or.inl h
  | succ n ih =>
    intro y c h
    cases y with
    | nil => exact Or.inl h
    | cons c0 rest =>
      rw [portScanF_succ] at h
      by_cases h1 : (c0 = ':' &&
          (match rest.head? with | some d => d.isDigit | none => false)) = true
      · rw [if_pos h1] at h
        rcases List.mem_append.mp h with h | h
        · exact Or.inr h
        · rcases ih _ c h with h | h
          · exact Or.inl (List.mem_cons_of_mem c0 ((List.dropWhile_sublist _).subset h))
          · exact Or.inr h
      · rw [if_neg h1] at h
        rcases List.mem_cons.mp h with h | h
        · exact Or.inl (by rw [h]; exact List.mem_cons_self c0 rest)
        · rcases ih rest c h with h | h
          · exact Or.inl (List.mem_cons_of_mem c0 h)
          · exact Or.inr h

/-- Characters of the UUID scanner's output. -/
theorem mem_uuidScanF : ∀ (n : Nat) (y : List Char) (c : Char),
    c ∈ uuidScanF n y → c ∈ y ∨ c ∈ ['/', '<', 'u', 'i', 'd', '>'] := by
  intro n
  induction n with
  | zero =>
    intro y c h
    cases y with
    | nil => exact Or.inl h
    | cons c0 rest => exact Or.inl h
  | succ n ih =>
    intro y c h
    cases y with
    | nil => exact Or.inl h
    | cons c0 rest =>
      rw [uuidScanF_succ] at h
      by_cases h1 : (c0 = '/' && 36 ≤ rest.length && (rest.take 36).all isUuidChar) = true
      · rw [if_pos h1] at h
        rcases List.mem_append.mp h with h | h
        · right
          have : c ∈ ['/', '<', 'u', 'u', 'i', 'd', '>'] := h
          simp only [List.mem_cons, List.not_mem_nil, or_false] at this ⊢
          tauto
        · rcases ih _ c h with h | h
          · exact Or.inl (List.mem_cons_of_mem c0 (List.mem_of_mem_drop h))
          · exact Or.inr h
      · rw [if_neg h1] at h
        rcases List.mem_cons.mp h with h | h
        · exact Or.inl (by rw [h]; exact List.mem_cons_self c0 rest)
        · rcases ih rest c h with h | h
          · exact Or.inl (List.mem_cons_of_mem c0 h)
          · exact Or.inr h

/-- Characters of the number scanner's output. -/
theorem mem_numScanF : ∀ (n : Nat) (prev : Option Char) (y : List Char) (c : Char),
    c ∈ numScanF n prev y → c ∈ y ∨ c ∈ ['<', 'n', '>'] := by
  intro n
  induction n with
  | zero =>
    intro prev y c h
    cases y with
    | nil => exact Or.inl h
    | cons c0 rest => exact Or.inl h
  | succ n ih =>
    intro prev y c h
    cases y with
    | nil => exact Or.inl h
    | cons c0 rest =>
      rw [numScanF_succ] at h
      by_cases h1 : (c0.isDigit && prevBoundary prev) = true
      · by_cases h2 : afterBoundary (rest.dropWhile Char.isDigit) = true
        · rw [if_pos h1, if_pos h2] at h
          rcases List.mem_append.mp h with h | h
          · exact Or.inr h
          · rcases ih _ _ c h with h | h
            · exact Or.inl (List.mem_cons_of_mem c0 ((List.dropWhile_sublist _).subset h))
            · exact Or.inr h
        · rw [if_pos h1, if_neg h2] at h
          rcases List.mem_append.mp h with h | h
          · rcases List.mem_cons.mp h with h | h
            · exact Or.inl (by rw [h]; exact List.mem_cons_self c0 rest)
            · exact Or.inl (List.mem_cons_of_mem c0 ((List.takeWhile_prefix _).subset h))
          · rcases ih _ _ c h with h | h
            · exact Or.inl (List.mem_cons_of_mem c0 ((List.dropWhile_sublist _).subset h))
            · exact Or.inr h
      · rw [if_neg h1] at h
        rcases List.mem_cons.mp h with h | h
        · exact Or.inl (by rw [h]; exact List.mem_cons_self c0 rest)
        · rcases ih _ rest c h with h | h
          · exact Or.inl (List.mem_cons_of_mem c0 h)
          · exact Or.inr h

/-- Characters of the whitespace scanner's output. -/
theorem mem_wsScanF : ∀ (n : Nat) (y : List Char) (c : Char),
    c ∈ wsScanF n y → c ∈ y ∨ c = ' ' := by
  intro n
  induction n with
  | zero =>
    intro y c h
    cases y with
    | nil => exact Or.inl h
    | cons c0 rest => exact Or.inl h
  | succ n ih =>
    intro y c h
    cases y with
    | nil => exact Or.inl h
    | cons c0 rest =>
      rw [wsScanF_succ] at h
      by_cases h1 : isJsSpace c0 = true
      · rw [if_pos h1] at h
        rcases List.mem_cons.mp h with h | h
        · exact Or.inr h
        · rcases ih _ c h with h | h
          · exact Or.inl (List.mem_cons_of_mem c0 ((List.dropWhile_sublist _).subset h))
          · exact Or.inr h
      · rw [if_neg h1] at h
        rcases List.mem_cons.mp h with h | h
        · exact Or.inl (by rw [h]; exact List.mem_cons_self c0 rest)
        · rcases ih rest c h with h | h
          · exact Or.inl (List.mem_cons_of_mem c0 h)
          · exact Or.inr h

/-- Characters of a trimmed string come from the string. -/
theorem mem_jsTrim {y : List Char} {c : Char} (h : c ∈ jsTrim y) : c ∈ y :=
  (jsTrim_infix_self y).subset h

/-- No step of the fingerprint pipeline produces an uppercase letter. -/
theorem noUpper_fingerprintPre (m : String) : NoUpper (fingerprintPre m) := by
  intro c hc
  have h5 := mem_jsTrim hc
  rcases mem_wsScanF _ _ c h5 with h4 | h4
  case inr => rw [h4]; decide
  rcases mem_numScanF _ _ _ c h4 with h3 | h3
  case inr =>
    exact (by decide :
      ∀ x ∈ ['<', 'n', '>'], ¬(65 ≤ x.toNat ∧ x.toNat ≤ 90)) c h3
  rcases mem_uuidScanF _ _ c h3 with h2 | h2
  case inr =>
    exact (by decide :
      ∀ x ∈ ['/', '<', 'u', 'i', 'd', '>'], ¬(65 ≤ x.toNat ∧ x.toNat ≤ 90)) c h2
  rcases mem_portScanF _ _ c h2 with h1 | h1
  case inr =>
    exact (by decide :
      ∀ x ∈ [':', '<', 'p', 'o', 'r', 't', '>'], ¬(65 ≤ x.toNat ∧ x.toNat ≤ 90)) c h1
  rcases mem_ipScanF _ _ c h1 with h0 | h0
  case inr =>
    exact (by decide :
      ∀ x ∈ ['<', 'i', 'p', '>'], ¬(65 ≤ x.toNat ∧ x.toNat ≤ 90)) c h0
  obtain ⟨x, _, rfl⟩ := List.mem_map.mp h0
  exact toLower_not_upper x

/-! #### The fingerprint pipeline is idempotent before truncation. -/

/-- An already-normalized fingerprint is a fixed point of the whole
pipeline. -/
theorem fingerprintPre_idem (m : String) :
    fingerprintPre (String.mk (fingerprintPre m)) = fingerprintPre m := by
  have hNum4 : NumOk none (numScan (uuidScan (portScan (ipScan
      ((String.toList m).map Char.toLower))))) :=
    numScanF_numOk _ none _ (le_refl _)
  have hNum5 : NumOk none (wsScan (numScan (uuidScan (portScan (ipScan
      ((String.toList m).map Char.toLower)))))) :=
    wsScanF_numOk_pres _ none _ hNum4
  have hNum6 : NumOk none (fingerprintPre m) := by
    obtain ⟨p, q, hy, hp, hq⟩ := jsTrim_parts (wsScan (numScan (uuidScan (portScan
      (ipScan ((String.toList m).map Char.toLower))))))
    exact numOk_ws_infix hy hp hq hNum5
  have hCD6 : NoCD (fingerprintPre m) :=
    noCD_infix (wsScanF_noCD_pres _ _ (numScanF_noCD_pres _ _ _
      (uuidScanF_noCD_pres _ _ (portScanF_noCD _ _ (le_refl _))))) (jsTrim_infix_self _)
  have hUu6 : NoUuid (fingerprintPre m) :=
    noUuid_infix (wsScanF_noUuid_pres _ _ (numScanF_noUuid_pres _ _ _
      (uuidScanF_noUuid _ _ (le_refl _)))) (jsTrim_infix_self _)
  have hWs6 : WsOk (fingerprintPre m) :=
    wsOk_infix (wsScanF_wsOk _ _ (le_refl _)) (jsTrim_infix_self _)
  have hIp6 : NoIp (fingerprintPre m) := numOk_noIp hNum6
  have hUp6 : NoUpper (fingerprintPre m) := noUpper_fingerprintPre m
  show jsTrim (wsScan (numScan (uuidScan (portScan (ipScan
      ((String.mk (fingerprintPre m)).toList.map Char.toLower)))))) = fingerprintPre m
  have e0 : (String.mk (fingerprintPre m)).toList = fingerprintPre m := rfl
  rw [e0, map_toLower_id hUp6,
    show ipScan (fingerprintPre m) = fingerprintPre m from ipScanF_id _ _ hIp6,
    show portScan (fingerprintPre m) = fingerprintPre m from portScanF_id _ _ hCD6,
    show uuidScan (fingerprintPre m) = fingerprintPre m from uuidScanF_id _ _ hUu6,
    show numScan (fingerprintPre m) = fingerprintPre m from numScanF_id _ _ _ hNum6,
    show wsScan (fingerprintPre m) = fingerprintPre m from wsScanF_id _ _ hWs6]
  exact jsTrim_jsTrim _


/-- C4 (amended): fingerprint normalization is idempotent whenever the
final `slice(0, 100)` does not truncate, i.e. when the normalized form of
the message is at most 100 characters long. -/
theorem claim_C4_amended (message : String)
    (h : (fingerprintPre message).length ≤ 100) :
    generateFingerprint (generateFingerprint message) = generateFingerprint message := by
  unfold generateFingerprint
  rw [List.take_of_length_le h, fingerprintPre_idem message, List.take_of_length_le h]

/-- Witness for C4 (amended) at a concrete short message. -/
theorem claim_C4_amended_witness :
    (fingerprintPre "Error 42 at /api/users").length ≤ 100 ∧
      generateFingerprint (generateFingerprint "Error 42 at /api/users") =
        generateFingerprint "Error 42 at /api/users" :=
  ⟨by decide, claim_C4_amended "Error 42 at /api/users" (by decide)⟩

set_option maxRecDepth 4096 in
/-- Counterexample to claim C4 as stated: on a 101-character message
(99 `'a'`s, a space, and a `'b'`), normalization truncates to 100
characters, leaving a trailing space that a second normalization trims
away, so `normalize (normalize x) ≠ normalize x`. -/
theorem claim_C4_counterexample :
    generateFingerprint
        (generateFingerprint (String.mk (List.replicate 99 'a' ++ [' ', 'b']))) ≠
      generateFingerprint (String.mk (List.replicate 99 'a' ++ [' ', 'b'])) := by
  decide

end SlsMemory
